import Mathlib

/-!
Verification of the RAG-Based-Chatbot knowledge-base pipeline.

This file gives a shallow embedding, in Lean 4, of the pure computational
core of the repository's `kb_pipeline` package:

* `kb_pipeline/retrieval/hybrid_retriever.py` — min-max score normalization
  and weighted fusion of sparse and dense search results;
* `kb_pipeline/retrieval/reranker.py` — the heuristic and the LLM-based
  rerank passes;
* `kb_pipeline/indexing/index_sparse.py` — tokenization and the BM25-style
  term weighting, and the batched upsert loop;
* `kb_pipeline/indexing/index_dense.py` — the batched embedding/upsert loop
  with its per-batch fallback behaviour;
* `kb_pipeline/preprocessor/preprocess.py` — markdown section parsing,
  token-based chunking with overlap, and chunk-id generation.

Python strings are modelled as `List Char` (ASCII suffices for every input
the theorems touch), Python floats as `ℚ`, Python dicts (which preserve
insertion order) as association lists with replace-in-place update, and
external effects (the LLM relevance judge, the embedding model, the
Pinecone upserts) as explicit oracle parameters.  Theorems about each
claim follow the definitions.
-/

/-- Python strings are modelled as lists of characters. -/
abbrev Str := List Char

/-- Test `strStartsWith hay needle`: `needle` is a prefix of `hay`. -/
def strStartsWith : Str → Str → Bool
  | _, [] => true
  | [], _ :: _ => false
  | c :: cs, d :: ds => c = d && strStartsWith cs ds

/-- Python's substring test `needle in hay`. -/
def strContains : Str → Str → Bool
  | [], needle => strStartsWith [] needle
  | c :: t, needle => strStartsWith (c :: t) needle || strContains t needle

/-- Python `str.lower` restricted to ASCII (all inputs in this file are ASCII). -/
def lowerChar (c : Char) : Char :=
  if 'A' ≤ c ∧ c ≤ 'Z' then Char.ofNat (c.toNat + 32) else c

/-- Lowercase a whole string. -/
def lowerStr (s : Str) : Str := s.map lowerChar

/-- The whitespace characters of Python's `str.split()` / `\s` (ASCII). -/
def pyIsSpace (c : Char) : Bool :=
  c = ' ' || c = '\t' || c = '\n' || c = '\r' || c = '\x0b' || c = '\x0c'

/-- Python `str.split()`: split on whitespace runs, no empty pieces. -/
def splitWsAux : Str → Str → List Str
  | [], cur => if cur = [] then [] else [cur.reverse]
  | c :: rest, cur =>
    if pyIsSpace c then
      if cur = [] then splitWsAux rest [] else cur.reverse :: splitWsAux rest []
    else
      splitWsAux rest (c :: cur)

def splitWs (s : Str) : List Str := splitWsAux s []

namespace HybridRetriever

/-- A search hit as returned by `SparseIndexer.search` / `DenseIndexer.search`:
the fields the fusion logic reads (`chunk_id` and `score`). -/
structure SearchResult where
  chunk_id : Str
  score : ℚ
deriving DecidableEq

/-- A fused result as built by `HybridRetriever._fuse_results`: the original
result fields plus the four fields the fusion adds. -/
structure FusedResult where
  chunk_id : Str
  score : ℚ
  sparse_score : ℚ
  dense_score : ℚ
  final_score : ℚ
  retrieval_method : Str
deriving DecidableEq

/-- Embedding of `HybridRetriever._normalize_scores` (hybrid_retriever.py lines 128-150):
min-max normalization; an empty list maps to an empty list, and when all
scores coincide every score maps to `1.0`.  Python's `min(scores)` /
`max(scores)` over the non-empty list are folds from the first element. -/
def normalize_scores (scores : List ℚ) : List ℚ :=
  match scores with
  | [] => []
  | s :: rest =>
    let min_score := rest.foldl min s
    let max_score := rest.foldl max s
    if max_score = min_score then
      List.replicate (s :: rest).length 1
    else
      (s :: rest).map (fun score => (score - min_score) / (max_score - min_score))

lemma foldl_min_le_init (l : List ℚ) (a : ℚ) : l.foldl min a ≤ a := by
  induction l generalizing a with
  | nil => simp
  | cons x t ih => exact le_trans (ih (min a x)) (min_le_left a x)

lemma foldl_min_le_mem {l : List ℚ} {x : ℚ} (hx : x ∈ l) (a : ℚ) :
    l.foldl min a ≤ x := by
  induction l generalizing a with
  | nil => cases hx
  | cons y t ih =>
    rcases List.mem_cons.1 hx with h | h
    · subst h
      exact le_trans (foldl_min_le_init t (min a x)) (min_le_right a x)
    · exact ih h (min a y)

lemma le_foldl_max_init (l : List ℚ) (a : ℚ) : a ≤ l.foldl max a := by
  induction l generalizing a with
  | nil => simp
  | cons x t ih => exact le_trans (le_max_left a x) (ih (max a x))

lemma foldl_max_le_mem {l : List ℚ} {x : ℚ} (hx : x ∈ l) (a : ℚ) :
    x ≤ l.foldl max a := by
  induction l generalizing a with
  | nil => cases hx
  | cons y t ih =>
    rcases List.mem_cons.1 hx with h | h
    · subst h
      exact le_trans (le_max_right a x) (le_foldl_max_init t (max a x))
    · exact ih h (max a y)

lemma foldl_min_const {l : List ℚ} {a : ℚ} (h : ∀ x ∈ l, x = a) :
    l.foldl min a = a := by
  induction l with
  | nil => rfl
  | cons x t ih =>
    have hx : x = a := h x (List.mem_cons_self x t)
    subst hx
    simpa using ih (fun y hy => h y (List.mem_cons_of_mem x hy))

lemma foldl_max_const {l : List ℚ} {a : ℚ} (h : ∀ x ∈ l, x = a) :
    l.foldl max a = a := by
  induction l with
  | nil => rfl
  | cons x t ih =>
    have hx : x = a := h x (List.mem_cons_self x t)
    subst hx
    simpa using ih (fun y hy => h y (List.mem_cons_of_mem x hy))

/-- Claim C2.  Min-max normalization maps each score to
`(score - min) / (max - min)` (whenever the scores are not all equal),
producing only values in `[0, 1]`; a non-empty list of all-equal scores
normalizes to all `1.0`; the empty list normalizes to the empty list. -/
theorem c2_normalize_scores (scores : List ℚ) :
    (scores = [] → normalize_scores scores = [])
    ∧ (scores ≠ [] → (∀ x ∈ scores, ∀ y ∈ scores, x = y) →
        normalize_scores scores = List.replicate scores.length 1)
    ∧ (∀ x ∈ normalize_scores scores, 0 ≤ x ∧ x ≤ 1)
    ∧ (∀ s rest, scores = s :: rest →
        rest.foldl max s ≠ rest.foldl min s →
        normalize_scores scores =
          scores.map (fun score =>
            (score - rest.foldl min s) / (rest.foldl max s - rest.foldl min s))) := by
  refine ⟨?_, ?_, ?_, ?_⟩
  · rintro rfl; rfl
  · intro hne hall
    match scores with
    | [] => exact absurd rfl hne
    | s :: rest =>
      have hconst : ∀ x ∈ rest, x = s := by
        intro x hx
        exact hall x (List.mem_cons_of_mem s hx) s (List.mem_cons_self s rest)
      simp [normalize_scores, foldl_min_const hconst, foldl_max_const hconst]
  · intro x hx
    match scores with
    | [] => simp [normalize_scores] at hx
    | s :: rest =>
      rw [normalize_scores] at hx
      by_cases heq : rest.foldl max s = rest.foldl min s
      · rw [if_pos heq] at hx
        have := List.eq_of_mem_replicate hx
        subst this
        norm_num
      · rw [if_neg heq] at hx
        rcases List.mem_map.1 hx with ⟨sc, hsc, rfl⟩
        have hmin : rest.foldl min s ≤ sc := by
          rcases List.mem_cons.1 hsc with h | h
          · subst h; exact foldl_min_le_init rest sc
          · exact foldl_min_le_mem h s
        have hmax : sc ≤ rest.foldl max s := by
          rcases List.mem_cons.1 hsc with h | h
          · subst h; exact le_foldl_max_init rest sc
          · exact foldl_max_le_mem h s
        have hlt : rest.foldl min s < rest.foldl max s :=
          lt_of_le_of_ne (le_trans hmin hmax) (Ne.symm heq)
        constructor
        · exact div_nonneg (sub_nonneg.2 hmin) (le_of_lt (sub_pos.2 hlt))
        · rw [div_le_one (sub_pos.2 hlt)]
          exact sub_le_sub_right hmax _
  · intro s rest hs hne
    subst hs
    simp [normalize_scores, if_neg hne]

/-- Witness for C2 at concrete inputs: `[4, 4]` (all equal) normalizes to
`[1, 1]`, and every normalized value of `[10, 5]` lies in `[0, 1]`. -/
theorem c2_normalize_scores_witness :
    normalize_scores [(4 : ℚ), 4] = [1, 1]
    ∧ (∀ x ∈ normalize_scores [(10 : ℚ), 5], 0 ≤ x ∧ x ≤ 1) := by
  constructor
  · exact (c2_normalize_scores [(4 : ℚ), 4]).2.1 (by simp)
      (by intro x hx y hy; fin_cases hx <;> fin_cases hy <;> norm_num)
  · exact (c2_normalize_scores [(10 : ℚ), 5]).2.2.1

/-! ### The fusion map

Python's `result_map` is a `dict` keyed by chunk id.  CPython dicts preserve
insertion order: assigning to an existing key replaces its value in place,
assigning to a fresh key appends.  We model it as an association list with
exactly those two behaviours. -/

/-- The fusion map: an insertion-ordered association list. -/
abbrev FuseMap := List (Str × FusedResult)

/-- Assignment `m[k] = v`: replace in place if the key is present, else append. -/
def dictSet (m : FuseMap) (k : Str) (v : FusedResult) : FuseMap :=
  match m with
  | [] => [(k, v)]
  | (k', v') :: rest =>
    if k' = k then (k', v) :: rest else (k', v') :: dictSet rest k v

/-- In-place mutation of the value stored at key `k` (no-op if absent). -/
def dictModify (m : FuseMap) (k : Str) (f : FusedResult → FusedResult) : FuseMap :=
  match m with
  | [] => []
  | (k', v') :: rest =>
    if k' = k then (k', f v') :: rest else (k', v') :: dictModify rest k f

/-- Python's `k in result_map`. -/
def dictContains (m : FuseMap) (k : Str) : Bool :=
  match m with
  | [] => false
  | (k', _) :: rest => k' = k || dictContains rest k

/-- Lookup (first match; keys are unique by construction). -/
def dictFind? (m : FuseMap) (k : Str) : Option FusedResult :=
  match m with
  | [] => none
  | (k', v') :: rest => if k' = k then some v' else dictFind? rest k

/-- The record built for a result seen in the sparse list
(hybrid_retriever.py lines 85-93). -/
def sparseEntry (ws : ℚ) (r : SearchResult) (ns : ℚ) : FusedResult :=
  { chunk_id := r.chunk_id
    score := r.score
    sparse_score := ns * ws
    dense_score := 0
    final_score := ns * ws
    retrieval_method := "sparse".data }

/-- The record built for a result seen only in the dense list
(hybrid_retriever.py lines 104-112). -/
def denseEntry (wd : ℚ) (r : SearchResult) (nd : ℚ) : FusedResult :=
  { chunk_id := r.chunk_id
    score := r.score
    sparse_score := 0
    dense_score := nd * wd
    final_score := nd * wd
    retrieval_method := "dense".data }

/-- The in-place update applied when a dense result's chunk id is already in
the map (hybrid_retriever.py lines 99-103). -/
def hybridUpdate (wd : ℚ) (nd : ℚ) (v : FusedResult) : FusedResult :=
  { v with
    dense_score := nd * wd
    final_score := v.final_score + nd * wd
    retrieval_method := "hybrid".data }

/-- First loop of `_fuse_results`: insert every sparse result, paired with
its normalized score. -/
def processSparse (ws : ℚ) : List (SearchResult × ℚ) → FuseMap → FuseMap
  | [], m => m
  | (r, ns) :: rest, m =>
    processSparse ws rest (dictSet m r.chunk_id (sparseEntry ws r ns))

/-- Second loop of `_fuse_results`: merge every dense result in. -/
def processDense (wd : ℚ) : List (SearchResult × ℚ) → FuseMap → FuseMap
  | [], m => m
  | (r, nd) :: rest, m =>
    if dictContains m r.chunk_id then
      processDense wd rest (dictModify m r.chunk_id (hybridUpdate wd nd))
    else
      processDense wd rest (dictSet m r.chunk_id (denseEntry wd r nd))

/-- The comparison realised by Python's stable
`sorted(..., key=lambda x: x['final_score'], reverse=True)`. -/
def fuseLE (a b : FusedResult) : Bool := decide (b.final_score ≤ a.final_score)

/-- Embedding of `HybridRetriever._fuse_results` (hybrid_retriever.py lines 65-126).
`ws`/`wd` are `sparse_weight`/`dense_weight`.  Python's stable descending
sort is `mergeSort` with `fuseLE`. -/
def fuse_results (ws wd : ℚ) (sparse_results dense_results : List SearchResult) :
    List FusedResult :=
  let sparse_scores := normalize_scores (sparse_results.map (·.score))
  let dense_scores := normalize_scores (dense_results.map (·.score))
  let m1 := processSparse ws (sparse_results.zip sparse_scores) []
  let m2 := processDense wd (dense_results.zip dense_scores) m1
  (m2.map Prod.snd).mergeSort fuseLE

/-- Embedding of `HybridRetriever.retrieve` (hybrid_retriever.py lines 39-63), given the
two raw result lists returned by the indexers' `search` calls. -/
def retrieve (ws wd : ℚ) (sparse_results dense_results : List SearchResult)
    (top_k : Nat) : List FusedResult :=
  (fuse_results ws wd sparse_results dense_results).take top_k

/-! ### Dictionary lemmas -/

lemma dictFind?_set_self (m : FuseMap) (k : Str) (v : FusedResult) :
    dictFind? (dictSet m k v) k = some v := by
  induction m with
  | nil => simp [dictSet, dictFind?]
  | cons p rest ih =>
    by_cases h : p.1 = k
    · simp [dictSet, dictFind?, h]
    · simp [dictSet, dictFind?, h, ih]

lemma dictFind?_set_ne (m : FuseMap) {k k' : Str} (v : FusedResult)
    (h : k' ≠ k) : dictFind? (dictSet m k' v) k = dictFind? m k := by
  induction m with
  | nil => simp [dictSet, dictFind?, h]
  | cons p rest ih =>
    by_cases hp : p.1 = k'
    · simp [dictSet, dictFind?, hp, h]
    · by_cases hk : p.1 = k
      · simp [dictSet, dictFind?, hp, hk, Ne.symm h]
      · simp [dictSet, dictFind?, hp, hk, ih]

lemma dictFind?_modify_self (m : FuseMap) (k : Str) (f : FusedResult → FusedResult) :
    dictFind? (dictModify m k f) k = (dictFind? m k).map f := by
  induction m with
  | nil => simp [dictModify, dictFind?]
  | cons p rest ih =>
    by_cases h : p.1 = k
    · simp [dictModify, dictFind?, h]
    · simp [dictModify, dictFind?, h, ih]

lemma dictFind?_modify_ne (m : FuseMap) {k k' : Str} (f : FusedResult → FusedResult)
    (h : k' ≠ k) : dictFind? (dictModify m k' f) k = dictFind? m k := by
  induction m with
  | nil => simp [dictModify, dictFind?]
  | cons p rest ih =>
    by_cases hp : p.1 = k'
    · simp [dictModify, dictFind?, hp, h]
    · by_cases hk : p.1 = k
      · simp [dictModify, dictFind?, hp, hk, Ne.symm h]
      · simp [dictModify, dictFind?, hp, hk, ih]

lemma dictContains_iff (m : FuseMap) (k : Str) :
    dictContains m k = true ↔ (dictFind? m k).isSome := by
  induction m with
  | nil => simp [dictContains, dictFind?]
  | cons p rest ih =>
    by_cases h : p.1 = k
    · simp [dictContains, dictFind?, h]
    · simp [dictContains, dictFind?, h, ih]

lemma dictFind?_mem {m : FuseMap} {k : Str} {v : FusedResult}
    (h : dictFind? m k = some v) : (k, v) ∈ m := by
  induction m with
  | nil => simp [dictFind?] at h
  | cons p rest ih =>
    by_cases hp : p.1 = k
    · rw [dictFind?, if_pos hp] at h
      have hv : p.2 = v := Option.some.inj h
      have hpkv : p = (k, v) := by
        cases p
        cases hp
        cases hv
        rfl
      rw [hpkv]
      exact List.mem_cons_self _ _
    · rw [dictFind?, if_neg hp] at h
      exact List.mem_cons_of_mem _ (ih h)

/-- The keys of a fusion map. -/
def dictKeys (m : FuseMap) : List Str := m.map Prod.fst

lemma dictKeys_set (m : FuseMap) (k : Str) (v : FusedResult) :
    dictKeys (dictSet m k v) =
      if dictContains m k then dictKeys m else dictKeys m ++ [k] := by
  induction m with
  | nil => simp [dictSet, dictKeys, dictContains]
  | cons p rest ih =>
    by_cases h : p.1 = k
    · simp [dictSet, dictKeys, dictContains, h]
    · simp only [dictSet, dictKeys, dictContains, h, List.map_cons, if_neg,
        decide_eq_true_eq, Bool.false_or]
      simp only [dictKeys] at ih
      by_cases hc : dictContains rest k
      · simp [hc, ih, h]
      · simp [hc, ih, h]

lemma dictKeys_modify (m : FuseMap) (k : Str) (f : FusedResult → FusedResult) :
    dictKeys (dictModify m k f) = dictKeys m := by
  induction m with
  | nil => rfl
  | cons p rest ih =>
    by_cases h : p.1 = k
    · simp [dictModify, dictKeys, h]
    · simp only [dictModify, dictKeys, h, if_neg, List.map_cons]
      simp only [dictKeys] at ih
      simp [ih, h]

lemma mem_dictKeys_iff (m : FuseMap) (k : Str) :
    k ∈ dictKeys m ↔ dictContains m k = true := by
  induction m with
  | nil => simp [dictKeys, dictContains]
  | cons p rest ih =>
    simp only [dictKeys, List.map_cons, List.mem_cons, dictContains,
      Bool.or_eq_true, decide_eq_true_eq]
    rw [← ih]
    constructor
    · rintro (h | h)
      · exact Or.inl h.symm
      · exact Or.inr h
    · rintro (h | h)
      · exact Or.inl h.symm
      · exact Or.inr h

lemma dictFind?_of_mem_nodup {m : FuseMap} (hm : (dictKeys m).Nodup)
    {k : Str} {v : FusedResult} (hmem : (k, v) ∈ m) :
    dictFind? m k = some v := by
  induction m with
  | nil => cases hmem
  | cons p rest ih =>
    have hm2 : (p.1 :: dictKeys rest).Nodup := hm
    rcases List.mem_cons.1 hmem with h | h
    · subst h
      simp [dictFind?]
    · have hk : p.1 ≠ k := by
        intro hpk
        have hmem2 : k ∈ dictKeys rest := List.mem_map.2 ⟨(k, v), h, rfl⟩
        have hp1 : p.1 ∈ dictKeys rest := by rw [hpk]; exact hmem2
        exact (List.nodup_cons.1 hm2).1 hp1
      rw [dictFind?, if_neg hk]
      exact ih ((List.nodup_cons.1 hm2).2) h

/-! ### Characterization of the two fusion loops -/

/-- The chunk ids of a result list. -/
def resultIds (l : List SearchResult) : List Str := l.map (·.chunk_id)

lemma normalize_scores_length (l : List ℚ) :
    (normalize_scores l).length = l.length := by
  match l with
  | [] => rfl
  | s :: rest =>
    rw [normalize_scores]
    by_cases h : rest.foldl max s = rest.foldl min s <;> simp [h]

/-- Lookup after the sparse loop, assuming the sparse chunk ids are distinct
within the list (search results are keyed by distinct chunks). -/
lemma processSparse_find (ws : ℚ) (pairs : List (SearchResult × ℚ)) (m : FuseMap)
    (hnodup : (pairs.map (fun p => p.1.chunk_id)).Nodup) (k : Str) :
    dictFind? (processSparse ws pairs m) k =
      match pairs.find? (fun p => decide (p.1.chunk_id = k)) with
      | some p => some (sparseEntry ws p.1 p.2)
      | none => dictFind? m k := by
  induction pairs generalizing m with
  | nil => simp [processSparse]
  | cons q rest ih =>
    obtain ⟨r, ns⟩ := q
    have hnd := List.nodup_cons.1 hnodup
    by_cases hk : r.chunk_id = k
    · subst hk
      have hnone : rest.find? (fun p => decide (p.1.chunk_id = r.chunk_id)) = none := by
        rw [List.find?_eq_none]
        intro p hp
        simp only [decide_eq_true_eq]
        intro hcontra
        refine hnd.1 ?_
        show r.chunk_id ∈ List.map (fun p => p.1.chunk_id) rest
        rw [← hcontra]
        exact List.mem_map.2 ⟨p, hp, rfl⟩
      rw [processSparse, ih _ hnd.2]
      simp [hnone, List.find?, dictFind?_set_self]
    · rw [processSparse, ih _ hnd.2]
      have hfind : List.find? (fun p => decide (p.1.chunk_id = k)) ((r, ns) :: rest)
          = rest.find? (fun p => decide (p.1.chunk_id = k)) := by
        rw [List.find?]
        simp [hk]
      rw [hfind]
      cases rest.find? (fun p => decide (p.1.chunk_id = k)) with
      | none => simp [dictFind?_set_ne _ _ hk]
      | some p => rfl

/-- Lookup after the dense loop, assuming the dense chunk ids are distinct
within the list. -/
lemma processDense_find (wd : ℚ) (pairs : List (SearchResult × ℚ)) (m : FuseMap)
    (hnodup : (pairs.map (fun p => p.1.chunk_id)).Nodup) (k : Str) :
    dictFind? (processDense wd pairs m) k =
      match pairs.find? (fun p => decide (p.1.chunk_id = k)) with
      | none => dictFind? m k
      | some p =>
        match dictFind? m k with
        | some v => some (hybridUpdate wd p.2 v)
        | none => some (denseEntry wd p.1 p.2) := by
  induction pairs generalizing m with
  | nil => simp [processDense]
  | cons q rest ih =>
    obtain ⟨r, nd⟩ := q
    have hnd := List.nodup_cons.1 hnodup
    by_cases hk : r.chunk_id = k
    · subst hk
      have hnone : rest.find? (fun p => decide (p.1.chunk_id = r.chunk_id)) = none := by
        rw [List.find?_eq_none]
        intro p hp
        simp only [decide_eq_true_eq]
        intro hcontra
        refine hnd.1 ?_
        show r.chunk_id ∈ List.map (fun p => p.1.chunk_id) rest
        rw [← hcontra]
        exact List.mem_map.2 ⟨p, hp, rfl⟩
      rw [processDense]
      by_cases hc : dictContains m r.chunk_id
      · rw [if_pos hc, ih _ hnd.2]
        obtain ⟨v, hv⟩ := Option.isSome_iff_exists.1 ((dictContains_iff m r.chunk_id).1 hc)
        simp [hnone, List.find?, hv, dictFind?_modify_self]
      · rw [if_neg hc, ih _ hnd.2]
        have hvnone : dictFind? m r.chunk_id = none := by
          cases hfind : dictFind? m r.chunk_id with
          | none => rfl
          | some v =>
            exact absurd ((dictContains_iff m r.chunk_id).2 (by rw [hfind]; rfl)) hc
        simp [hnone, List.find?, hvnone, dictFind?_set_self]
    · rw [processDense]
      have hfind : List.find? (fun p => decide (p.1.chunk_id = k)) ((r, nd) :: rest)
          = rest.find? (fun p => decide (p.1.chunk_id = k)) := by
        rw [List.find?]
        simp [hk]
      by_cases hc : dictContains m r.chunk_id
      · rw [if_pos hc, ih _ hnd.2, hfind]
        cases rest.find? (fun p => decide (p.1.chunk_id = k)) with
        | none => simp [dictFind?_modify_ne _ _ hk]
        | some p => simp [dictFind?_modify_ne _ _ hk]
      · rw [if_neg hc, ih _ hnd.2, hfind]
        cases rest.find? (fun p => decide (p.1.chunk_id = k)) with
        | none => simp [dictFind?_set_ne _ _ hk]
        | some p => simp [dictFind?_set_ne _ _ hk]

/-! Invariants of the fusion map: keys stay distinct, and every stored
record's `chunk_id` equals its key. -/

lemma dictKeys_nodup_set {m : FuseMap} (hm : (dictKeys m).Nodup)
    (k : Str) (v : FusedResult) : (dictKeys (dictSet m k v)).Nodup := by
  rw [dictKeys_set]
  by_cases hc : dictContains m k
  · simpa [hc] using hm
  · have hk : k ∉ dictKeys m := fun hmem => hc ((mem_dictKeys_iff m k).1 hmem)
    simp only [hc, if_false, Bool.false_eq_true]
    refine List.Nodup.append hm (List.nodup_singleton k) ?_
    intro x hx hxk
    rw [List.mem_singleton] at hxk
    subst hxk
    exact hk hx

lemma dictSet_mem {m : FuseMap} {k : Str} {v : FusedResult} {p : Str × FusedResult}
    (hp : p ∈ dictSet m k v) : p ∈ m ∨ p = (k, v) := by
  induction m with
  | nil => simpa [dictSet] using hp
  | cons q rest ih =>
    by_cases hq : q.1 = k
    · rw [dictSet, if_pos hq] at hp
      rcases List.mem_cons.1 hp with h | h
      · right
        rw [h, hq]
      · exact Or.inl (List.mem_cons_of_mem _ h)
    · rw [dictSet, if_neg hq] at hp
      rcases List.mem_cons.1 hp with h | h
      · exact Or.inl (h ▸ List.mem_cons_self _ _)
      · rcases ih h with h' | h'
        · exact Or.inl (List.mem_cons_of_mem _ h')
        · exact Or.inr h'

lemma dictModify_mem {m : FuseMap} {k : Str} {f : FusedResult → FusedResult}
    {p : Str × FusedResult} (hp : p ∈ dictModify m k f) :
    p ∈ m ∨ ∃ v, (p.1, v) ∈ m ∧ p.2 = f v := by
  induction m with
  | nil => simp [dictModify] at hp
  | cons q rest ih =>
    by_cases hq : q.1 = k
    · rw [dictModify, if_pos hq] at hp
      rcases List.mem_cons.1 hp with h | h
      · right
        exact ⟨q.2, by rw [h]; exact List.mem_cons_self _ _, by rw [h]⟩
      · exact Or.inl (List.mem_cons_of_mem _ h)
    · rw [dictModify, if_neg hq] at hp
      rcases List.mem_cons.1 hp with h | h
      · exact Or.inl (h ▸ List.mem_cons_self _ _)
      · rcases ih h with h' | ⟨v, hv, hfv⟩
        · exact Or.inl (List.mem_cons_of_mem _ h')
        · exact Or.inr ⟨v, List.mem_cons_of_mem _ hv, hfv⟩

/-- Both loops preserve distinctness of the map's keys. -/
lemma processSparse_keys_nodup (ws : ℚ) (pairs : List (SearchResult × ℚ))
    {m : FuseMap} (hm : (dictKeys m).Nodup) :
    (dictKeys (processSparse ws pairs m)).Nodup := by
  induction pairs generalizing m with
  | nil => exact hm
  | cons q rest ih => exact ih (dictKeys_nodup_set hm _ _)

lemma processDense_keys_nodup (wd : ℚ) (pairs : List (SearchResult × ℚ))
    {m : FuseMap} (hm : (dictKeys m).Nodup) :
    (dictKeys (processDense wd pairs m)).Nodup := by
  induction pairs generalizing m with
  | nil => exact hm
  | cons q rest ih =>
    rw [processDense]
    by_cases hc : dictContains m q.1.chunk_id
    · rw [if_pos hc]
      exact ih (by rw [dictKeys_modify]; exact hm)
    · rw [if_neg hc]
      exact ih (dictKeys_nodup_set hm _ _)

/-- Both loops preserve "every stored record's `chunk_id` is its key". -/
lemma processSparse_inv (ws : ℚ) (pairs : List (SearchResult × ℚ))
    {m : FuseMap} (hm : ∀ p ∈ m, (Prod.snd p).chunk_id = p.1) :
    ∀ p ∈ processSparse ws pairs m, (Prod.snd p).chunk_id = p.1 := by
  induction pairs generalizing m with
  | nil => exact hm
  | cons q rest ih =>
    refine ih ?_
    intro p hp
    rcases dictSet_mem hp with h | h
    · exact hm p h
    · rw [h]
      rfl

lemma processDense_inv (wd : ℚ) (pairs : List (SearchResult × ℚ))
    {m : FuseMap} (hm : ∀ p ∈ m, (Prod.snd p).chunk_id = p.1) :
    ∀ p ∈ processDense wd pairs m, (Prod.snd p).chunk_id = p.1 := by
  induction pairs generalizing m with
  | nil => exact hm
  | cons q rest ih =>
    rw [processDense]
    by_cases hc : dictContains m q.1.chunk_id
    · rw [if_pos hc]
      refine ih ?_
      intro p hp
      rcases dictModify_mem hp with h | ⟨v, hv, hfv⟩
      · exact hm p h
      · rw [hfv]
        exact hm (p.1, v) hv
    · rw [if_neg hc]
      refine ih ?_
      intro p hp
      rcases dictSet_mem hp with h | h
      · exact hm p h
      · rw [h]
        rfl

/-- Lookup `find?` over the zipped list locates exactly position `i` when the
chunk ids are distinct. -/
lemma find?_zip_of_nodup {l : List SearchResult} {ns : List ℚ}
    (hlen : l.length ≤ ns.length)
    (hnodup : (l.map (·.chunk_id)).Nodup) {i : Nat} (hi : i < l.length) :
    (l.zip ns).find? (fun p => decide (p.1.chunk_id = l[i].chunk_id))
      = some (l[i], ns.get ⟨i, lt_of_lt_of_le hi hlen⟩) := by
  induction l generalizing ns i with
  | nil => cases hi
  | cons r t ih =>
    cases ns with
    | nil => simp at hlen
    | cons n nt =>
      have hnd := List.nodup_cons.1 hnodup
      cases i with
      | zero => simp [List.find?]
      | succ j =>
        have hj : j < t.length := Nat.lt_of_succ_lt_succ hi
        have hne : r.chunk_id ≠ t[j].chunk_id := by
          intro hcontra
          refine hnd.1 ?_
          show r.chunk_id ∈ List.map (fun x => x.chunk_id) t
          rw [hcontra]
          exact List.mem_map.2 ⟨t[j], List.getElem_mem hj, rfl⟩
        have hgt : (r :: t)[j + 1] = t[j] := rfl
        rw [List.zip_cons_cons, List.find?]
        simp only [hgt, hne, decide_False]
        exact ih (Nat.le_of_succ_le_succ hlen) hnd.2 hj

/-- The first components of the zipped list are the results themselves. -/
lemma zip_map_fst_ids {l : List SearchResult} {ns : List ℚ}
    (hlen : l.length ≤ ns.length) :
    (l.zip ns).map (fun p => p.1.chunk_id) = resultIds l := by
  have h1 : (l.zip ns).map Prod.fst = l := List.map_fst_zip l ns hlen
  calc (l.zip ns).map (fun p => p.1.chunk_id)
      = ((l.zip ns).map Prod.fst).map (·.chunk_id) := by rw [List.map_map]; rfl
    _ = resultIds l := by rw [h1]; rfl

lemma find?_zip_of_not_mem {l : List SearchResult} {ns : List ℚ}
    (hlen : l.length ≤ ns.length) {k : Str} (hk : k ∉ resultIds l) :
    (l.zip ns).find? (fun p => decide (p.1.chunk_id = k)) = none := by
  rw [List.find?_eq_none]
  intro p hp
  simp only [decide_eq_true_eq]
  intro hcontra
  refine hk ?_
  rw [← zip_map_fst_ids hlen]
  exact hcontra ▸ List.mem_map.2 ⟨p, hp, rfl⟩

lemma find?_zip_some_mem {l : List SearchResult} {ns : List ℚ} {k : Str}
    {p : SearchResult × ℚ}
    (h : (l.zip ns).find? (fun p => decide (p.1.chunk_id = k)) = some p) :
    k ∈ resultIds l := by
  have hp := List.mem_of_find?_eq_some h
  have hk := List.find?_some h
  simp only [decide_eq_true_eq] at hk
  exact List.mem_map.2 ⟨p.1, (List.of_mem_zip hp).1, hk⟩

lemma getD_of_lt {l : List ℚ} {i : Nat} (h : i < l.length) : l.getD i 0 = l[i] :=
  List.getD_eq_getElem l 0 h

/-- Claim C1.  Fusion by chunk id (assuming, as search guarantees, that the
chunk ids within each result list are distinct): a chunk only in the sparse
list gets `sparse_score = normalized·sparse_weight`, `dense_score = 0`,
`final_score = sparse_score` and method `"sparse"`; a chunk only in the
dense list is symmetric with method `"dense"`; a chunk in both sums the two
weighted contributions and is labeled `"hybrid"`; and `"hybrid"` appears on
a fused record exactly when its chunk id occurs in both input lists. -/
theorem c1_fuse_results (ws wd : ℚ) (sparse dense : List SearchResult)
    (hs : (resultIds sparse).Nodup) (hd : (resultIds dense).Nodup) :
    (∀ i (hi : i < sparse.length), sparse[i].chunk_id ∉ resultIds dense →
      ∃ e ∈ fuse_results ws wd sparse dense,
        e.chunk_id = sparse[i].chunk_id
        ∧ e.sparse_score = (normalize_scores (sparse.map (·.score))).getD i 0 * ws
        ∧ e.dense_score = 0
        ∧ e.final_score = e.sparse_score
        ∧ e.retrieval_method = "sparse".data)
    ∧ (∀ j (hj : j < dense.length), dense[j].chunk_id ∉ resultIds sparse →
      ∃ e ∈ fuse_results ws wd sparse dense,
        e.chunk_id = dense[j].chunk_id
        ∧ e.sparse_score = 0
        ∧ e.dense_score = (normalize_scores (dense.map (·.score))).getD j 0 * wd
        ∧ e.final_score = e.dense_score
        ∧ e.retrieval_method = "dense".data)
    ∧ (∀ i (hi : i < sparse.length), ∀ j (hj : j < dense.length),
        sparse[i].chunk_id = dense[j].chunk_id →
      ∃ e ∈ fuse_results ws wd sparse dense,
        e.chunk_id = sparse[i].chunk_id
        ∧ e.sparse_score = (normalize_scores (sparse.map (·.score))).getD i 0 * ws
        ∧ e.dense_score = (normalize_scores (dense.map (·.score))).getD j 0 * wd
        ∧ e.final_score =
            (normalize_scores (sparse.map (·.score))).getD i 0 * ws
            + (normalize_scores (dense.map (·.score))).getD j 0 * wd
        ∧ e.retrieval_method = "hybrid".data)
    ∧ (∀ e ∈ fuse_results ws wd sparse dense,
        e.retrieval_method = "hybrid".data ↔
          (e.chunk_id ∈ resultIds sparse ∧ e.chunk_id ∈ resultIds dense)) := by
  have hlen_s : sparse.length ≤ (normalize_scores (sparse.map (·.score))).length := by
    rw [normalize_scores_length, List.length_map]
  have hlen_d : dense.length ≤ (normalize_scores (dense.map (·.score))).length := by
    rw [normalize_scores_length, List.length_map]
  have hnodup_zs :
      ((sparse.zip (normalize_scores (sparse.map (·.score)))).map
        (fun p => p.1.chunk_id)).Nodup := by
    rw [zip_map_fst_ids hlen_s]
    exact hs
  have hnodup_zd :
      ((dense.zip (normalize_scores (dense.map (·.score)))).map
        (fun p => p.1.chunk_id)).Nodup := by
    rw [zip_map_fst_ids hlen_d]
    exact hd
  -- membership in the fused output from a successful lookup
  have hmem_fused : ∀ (k : Str) (e : FusedResult),
      dictFind? (processDense wd (dense.zip (normalize_scores (dense.map (·.score))))
        (processSparse ws (sparse.zip (normalize_scores (sparse.map (·.score)))) []))
        k = some e →
      e ∈ fuse_results ws wd sparse dense := by
    intro k e hfind
    have hmem := dictFind?_mem hfind
    simp only [fuse_results]
    exact List.mem_mergeSort.2 (List.mem_map.2 ⟨(k, e), hmem, rfl⟩)
  refine ⟨?_, ?_, ?_, ?_⟩
  · -- chunk only in the sparse list
    intro i hi hnotin
    have hzd := find?_zip_of_not_mem (k := sparse[i].chunk_id) hlen_d hnotin
    have hzs := find?_zip_of_nodup hlen_s hs hi
    have hm2 :
        dictFind? (processDense wd (dense.zip (normalize_scores (dense.map (·.score))))
          (processSparse ws (sparse.zip (normalize_scores (sparse.map (·.score)))) []))
          sparse[i].chunk_id
        = some (sparseEntry ws sparse[i]
            ((normalize_scores (sparse.map (·.score))).get
              ⟨i, lt_of_lt_of_le hi hlen_s⟩)) := by
      rw [processDense_find wd _ _ hnodup_zd, hzd,
        processSparse_find ws _ _ hnodup_zs, hzs]
    refine ⟨_, hmem_fused _ _ hm2, rfl, ?_, rfl, rfl, rfl⟩
    rw [getD_of_lt (lt_of_lt_of_le hi hlen_s)]
    rfl
  · -- chunk only in the dense list
    intro j hj hnotin
    have hzd := find?_zip_of_nodup hlen_d hd hj
    have hzs := find?_zip_of_not_mem (k := dense[j].chunk_id) hlen_s hnotin
    have hm2 :
        dictFind? (processDense wd (dense.zip (normalize_scores (dense.map (·.score))))
          (processSparse ws (sparse.zip (normalize_scores (sparse.map (·.score)))) []))
          dense[j].chunk_id
        = some (denseEntry wd dense[j]
            ((normalize_scores (dense.map (·.score))).get
              ⟨j, lt_of_lt_of_le hj hlen_d⟩)) := by
      rw [processDense_find wd _ _ hnodup_zd, hzd,
        processSparse_find ws _ _ hnodup_zs, hzs]
      rfl
    refine ⟨_, hmem_fused _ _ hm2, rfl, rfl, ?_, rfl, rfl⟩
    rw [getD_of_lt (lt_of_lt_of_le hj hlen_d)]
    rfl
  · -- chunk in both lists
    intro i hi j hj hij
    have hzd := find?_zip_of_nodup hlen_d hd hj
    have hzs := find?_zip_of_nodup hlen_s hs hi
    have hm2 :
        dictFind? (processDense wd (dense.zip (normalize_scores (dense.map (·.score))))
          (processSparse ws (sparse.zip (normalize_scores (sparse.map (·.score)))) []))
          sparse[i].chunk_id
        = some (hybridUpdate wd
            ((normalize_scores (dense.map (·.score))).get
              ⟨j, lt_of_lt_of_le hj hlen_d⟩)
            (sparseEntry ws sparse[i]
              ((normalize_scores (sparse.map (·.score))).get
                ⟨i, lt_of_lt_of_le hi hlen_s⟩))) := by
      rw [processDense_find wd _ _ hnodup_zd, hij, hzd,
        processSparse_find ws _ _ hnodup_zs]
      rw [← hij, hzs]
    refine ⟨_, hmem_fused _ _ hm2, rfl, ?_, ?_, ?_, rfl⟩
    · rw [getD_of_lt (lt_of_lt_of_le hi hlen_s)]
      rfl
    · rw [getD_of_lt (lt_of_lt_of_le hj hlen_d)]
      rfl
    · rw [getD_of_lt (lt_of_lt_of_le hi hlen_s), getD_of_lt (lt_of_lt_of_le hj hlen_d)]
      rfl
  · -- "hybrid" iff the chunk id occurs in both lists
    intro e he
    have hkeys : (dictKeys (processDense wd
        (dense.zip (normalize_scores (dense.map (·.score))))
        (processSparse ws (sparse.zip (normalize_scores (sparse.map (·.score)))) []))).Nodup :=
      processDense_keys_nodup _ _
        (processSparse_keys_nodup _ _ (by simp [dictKeys]))
    have hinv : ∀ p ∈ processDense wd (dense.zip (normalize_scores (dense.map (·.score))))
        (processSparse ws (sparse.zip (normalize_scores (sparse.map (·.score)))) []),
        (Prod.snd p).chunk_id = p.1 :=
      processDense_inv _ _ (processSparse_inv _ _ (by simp))
    simp only [fuse_results] at he
    obtain ⟨p, hpmem, hpe⟩ := List.mem_map.1 (List.mem_mergeSort.1 he)
    have hpfst : p = (p.1, e) := by
      cases p
      cases hpe
      rfl
    have hfind := dictFind?_of_mem_nodup hkeys (hpfst ▸ hpmem)
    have hcid : e.chunk_id = p.1 := by
      have := hinv p hpmem
      rw [hpe] at this
      exact this
    rw [processDense_find wd _ _ hnodup_zd,
      processSparse_find ws _ _ hnodup_zs] at hfind
    cases hzd : (dense.zip (normalize_scores (dense.map (·.score)))).find?
        (fun q => decide (q.1.chunk_id = p.1)) with
    | none =>
      have hdnot : e.chunk_id ∉ resultIds dense := by
        rw [hcid, ← zip_map_fst_ids hlen_d]
        intro hmem
        obtain ⟨q, hq, hqid⟩ := List.mem_map.1 hmem
        have := List.find?_eq_none.1 hzd q hq
        simp only [decide_eq_true_eq] at this
        exact this hqid
      rw [hzd] at hfind
      cases hzs : (sparse.zip (normalize_scores (sparse.map (·.score)))).find?
          (fun q => decide (q.1.chunk_id = p.1)) with
      | none =>
        rw [hzs] at hfind
        simp [dictFind?] at hfind
      | some q =>
        rw [hzs] at hfind
        simp only [Option.some.injEq] at hfind
        constructor
        · intro hmeth
          rw [← hfind] at hmeth
          exact absurd (show ("sparse".data : Str) = "hybrid".data from hmeth) (by decide)
        · rintro ⟨-, habs⟩
          exact absurd habs hdnot
    | some q =>
      have hdin : e.chunk_id ∈ resultIds dense := by
        rw [hcid]
        exact find?_zip_some_mem hzd
      rw [hzd] at hfind
      cases hzs : (sparse.zip (normalize_scores (sparse.map (·.score)))).find?
          (fun q => decide (q.1.chunk_id = p.1)) with
      | none =>
        have hsnot : e.chunk_id ∉ resultIds sparse := by
          rw [hcid, ← zip_map_fst_ids hlen_s]
          intro hmem
          obtain ⟨q', hq', hqid⟩ := List.mem_map.1 hmem
          have := List.find?_eq_none.1 hzs q' hq'
          simp only [decide_eq_true_eq] at this
          exact this hqid
        rw [hzs] at hfind
        simp only [dictFind?, Option.some.injEq] at hfind
        constructor
        · intro hmeth
          rw [← hfind] at hmeth
          exact absurd (show ("dense".data : Str) = "hybrid".data from hmeth) (by decide)
        · rintro ⟨habs, -⟩
          exact absurd habs hsnot
      | some q' =>
        have hsin : e.chunk_id ∈ resultIds sparse := by
          rw [hcid]
          exact find?_zip_some_mem hzs
        rw [hzs] at hfind
        simp only [Option.some.injEq] at hfind
        refine ⟨fun _ => ⟨hsin, hdin⟩, fun _ => ?_⟩
        rw [← hfind]
        rfl

/-- Counterexample to C1 as stated (with no restriction on the result
lists): when the dense list repeats a chunk id, the second occurrence finds
the first already in the map and labels the chunk `"hybrid"` even though it
appears in the dense list only — so `retrieval_method = "hybrid"` does not
hold iff the chunk id appears in both lists. -/
theorem c1_fuse_results_cex :
    (fuse_results (1/2) (1/2) [] [⟨"x".data, 5⟩, ⟨"x".data, 7⟩]).map
        (fun e => (e.chunk_id, e.retrieval_method))
      = [("x".data, "hybrid".data)]
    ∧ "x".data ∉ resultIds ([] : List SearchResult) := by
  constructor
  · norm_num +decide [fuse_results, normalize_scores, processSparse, processDense,
      dictSet, dictContains, dictModify, hybridUpdate, denseEntry, sparseEntry,
      List.mergeSort, List.merge, fuseLE]
  · simp [resultIds]

/-- Witness for C1: the sparse-only case applied to Scenario B's inputs
(`sparse = [a:10, b:5]`, `dense = [b:0.9, c:0.1]`, both weights `1/2`). -/
theorem c1_fuse_results_witness :
    ∃ e ∈ fuse_results (1/2) (1/2)
        [⟨"a".data, 10⟩, ⟨"b".data, 5⟩] [⟨"b".data, 9/10⟩, ⟨"c".data, 1/10⟩],
      e.chunk_id = (([⟨"a".data, 10⟩, ⟨"b".data, 5⟩] : List SearchResult))[0].chunk_id
      ∧ e.sparse_score =
          (normalize_scores (([⟨"a".data, 10⟩, ⟨"b".data, 5⟩] : List SearchResult).map
            (·.score))).getD 0 0 * (1/2)
      ∧ e.dense_score = 0
      ∧ e.final_score = e.sparse_score
      ∧ e.retrieval_method = "sparse".data :=
  (c1_fuse_results (1/2) (1/2)
      [⟨"a".data, 10⟩, ⟨"b".data, 5⟩] [⟨"b".data, 9/10⟩, ⟨"c".data, 1/10⟩]
      (by decide) (by decide)).1 0 (by decide) (by decide)

/-! ### Claim C3: ordering of the fused output -/

/-- The fusion map's values in insertion order (the list Python's
`sorted` is applied to in `_fuse_results`). -/
def fuseMapValues (ws wd : ℚ) (sparse_results dense_results : List SearchResult) :
    List FusedResult :=
  let sparse_scores := normalize_scores (sparse_results.map (·.score))
  let dense_scores := normalize_scores (dense_results.map (·.score))
  let m1 := processSparse ws (sparse_results.zip sparse_scores) []
  let m2 := processDense wd (dense_results.zip dense_scores) m1
  m2.map Prod.snd

lemma fuse_results_eq_mergeSort (ws wd : ℚ) (sparse dense : List SearchResult) :
    fuse_results ws wd sparse dense = (fuseMapValues ws wd sparse dense).mergeSort fuseLE :=
  rfl

lemma fuseLE_trans : ∀ a b c : FusedResult,
    fuseLE a b = true → fuseLE b c = true → fuseLE a c = true := by
  intro a b c hab hbc
  simp only [fuseLE, decide_eq_true_eq] at *
  exact le_trans hbc hab

lemma fuseLE_total : ∀ a b : FusedResult, (fuseLE a b || fuseLE b a) = true := by
  intro a b
  simp only [fuseLE, Bool.or_eq_true, decide_eq_true_eq]
  exact le_total b.final_score a.final_score

/-- Counterexample to C3 as stated: two dense-only chunks with equal raw
score `5` both normalize to `1.0` and tie at fused score `1/2`; Python's
stable sort keeps their insertion order `b, a`, not the ascending chunk-id
order `a, b` the claim asserts. -/
theorem c3_sort_cex :
    (fuse_results (1/2) (1/2) [] [⟨"b".data, 5⟩, ⟨"a".data, 5⟩]).map
        (fun e => (e.chunk_id, e.final_score))
      = [("b".data, 1/2), ("a".data, 1/2)]
    ∧ List.Lex (· < ·) "a".data "b".data := by
  constructor
  · norm_num +decide [fuse_results, normalize_scores, processSparse, processDense,
      dictSet, dictContains, dictModify, hybridUpdate, denseEntry, sparseEntry,
      List.mergeSort, List.merge, fuseLE]
  · decide

/-- Claim C3, amended.  The fused output is sorted by `final_score`
descending, and exact ties are broken deterministically by insertion order
into the fusion map (all chunks seen in the sparse list in sparse order,
then dense-only chunks in dense order) — Python's `sorted` is stable and no
chunk-id tie-break exists in the code.  On Scenario B's inputs the fused
scores are `a = 1/2, b = 1/2, c = 0`, and the `a`/`b` tie is broken by
insertion order, leaving `a` first. -/
theorem c3_sort (ws wd : ℚ) (sparse dense : List SearchResult) :
    (fuse_results ws wd sparse dense).Pairwise
      (fun a b => b.final_score ≤ a.final_score)
    ∧ (fuse_results ws wd sparse dense).Perm (fuseMapValues ws wd sparse dense)
    ∧ (∀ a b : FusedResult, [a, b].Sublist (fuseMapValues ws wd sparse dense) →
        b.final_score ≤ a.final_score →
        [a, b].Sublist (fuse_results ws wd sparse dense))
    ∧ (fuse_results (1/2) (1/2) [⟨"a".data, 10⟩, ⟨"b".data, 5⟩]
          [⟨"b".data, 9/10⟩, ⟨"c".data, 1/10⟩]).map
        (fun e => (e.chunk_id, e.final_score))
      = [("a".data, 1/2), ("b".data, 1/2), ("c".data, 0)] := by
  refine ⟨?_, ?_, ?_, ?_⟩
  · rw [fuse_results_eq_mergeSort]
    exact (List.sorted_mergeSort fuseLE_trans fuseLE_total _).imp
      (fun h => by simpa [fuseLE] using h)
  · rw [fuse_results_eq_mergeSort]
    exact List.mergeSort_perm _ _
  · intro a b hsub hle
    rw [fuse_results_eq_mergeSort]
    exact List.pair_sublist_mergeSort fuseLE_trans fuseLE_total
      (by simpa [fuseLE] using hle) hsub
  · norm_num +decide [fuse_results, normalize_scores, processSparse, processDense,
      dictSet, dictContains, dictModify, hybridUpdate, denseEntry, sparseEntry,
      List.mergeSort, List.merge, fuseLE]

/-- Witness for C3: the tie-stability clause applied to the concrete input
of the counterexample (dense-only chunks `b, a`, both fused to `1/2`). -/
theorem c3_sort_witness :
    List.Sublist
      [⟨"b".data, 5, 0, 1/2, 1/2, "dense".data⟩,
        ⟨"a".data, 5, 0, 1/2, 1/2, "dense".data⟩]
      (fuse_results (1/2) (1/2) [] [⟨"b".data, 5⟩, ⟨"a".data, 5⟩]) := by
  have hval : fuseMapValues (1/2) (1/2) [] [⟨"b".data, 5⟩, ⟨"a".data, 5⟩]
      = [⟨"b".data, 5, 0, 1/2, 1/2, "dense".data⟩,
          ⟨"a".data, 5, 0, 1/2, 1/2, "dense".data⟩] := by
    norm_num +decide [fuseMapValues, normalize_scores, processSparse, processDense,
      dictSet, dictContains, dictModify, hybridUpdate, denseEntry, sparseEntry]
  refine (c3_sort (1/2) (1/2) [] [⟨"b".data, 5⟩, ⟨"a".data, 5⟩]).2.2.1 _ _ ?_ ?_
  · rw [hval]
  · norm_num

end HybridRetriever

namespace Reranker

/-- A retrieved document as the reranker sees it: its `content`, the score
keys the reranker reads (`score`, `final_score`) or writes (`heuristic_score`,
`original_score`, `rerank_score`, `llm_score`), all optional as dict keys
are, and `rest` for every other key of the dict, which the reranker never
touches. -/
structure Doc (α : Type) where
  content : Str
  score : Option ℚ
  final_score : Option ℚ
  heuristic_score : Option ℚ
  original_score : Option ℚ
  rerank_score : Option ℚ
  llm_score : Option ℚ
  rest : α
deriving DecidableEq

/-- Python's `doc.get('final_score', doc.get('score', 0.0))`. -/
def originalScore {α : Type} (d : Doc α) : ℚ :=
  d.final_score.getD (d.score.getD 0)

/-- Embedding of `set(query.lower().split())` (reranker.py line 120): the distinct
lowercased whitespace-separated terms.  Only the member set matters (the
code takes its size and counts members), so a deduplicated list models it. -/
def queryTerms (query : Str) : List Str := (splitWs (lowerStr query)).dedup

/-- The per-document body of `Reranker._heuristic_rerank`
(reranker.py lines 122-142): computes `term_coverage`, `length_score`,
`heuristic_score` and the combined score, and writes the three score fields
into the document in place. -/
def heuristicFields {α : Type} (query_terms : List Str) (d : Doc α) : Doc α :=
  let content_lower := lowerStr d.content
  let term_matches := query_terms.countP (fun term => strContains content_lower term)
  let term_coverage : ℚ :=
    if query_terms = [] then 0 else (term_matches : ℚ) / (query_terms.length : ℚ)
  let content_length := d.content.length
  let length_score : ℚ := max 0 (min 1 (1 - |(content_length : ℚ) - 500| / 500))
  let original_score := originalScore d
  let heuristic_score := term_coverage * (7/10) + length_score * (3/10)
  let combined_score := (original_score + heuristic_score) / 2
  { d with
    heuristic_score := some heuristic_score
    original_score := some original_score
    rerank_score := some combined_score }

/-! The heuristic pass mutates the caller's document dicts and sorts the
caller's list in place, so we model the heap explicitly: a store of
documents, and the caller's list as a list of references into it. -/

abbrev Store (α : Type) := List (Doc α)

/-- Mutate the document at index `i` (no-op when out of range). -/
def storeModify {α : Type} : Store α → Nat → (Doc α → Doc α) → Store α
  | [], _, _ => []
  | d :: t, 0, f => f d :: t
  | d :: t, n + 1, f => d :: storeModify t n f

/-- The `for doc in documents:` loop of `_heuristic_rerank`: write the three
score fields into every referenced document. -/
def writeFields {α : Type} (qt : List Str) : List Nat → Store α → Store α
  | [], s => s
  | r :: rest, s => writeFields qt rest (storeModify s r (heuristicFields qt))

/-- The score a reference sorts by after the loop (`x['rerank_score']`). -/
def refScore {α : Type} (s : Store α) (i : Nat) : ℚ :=
  match s.get? i with
  | some d => d.rerank_score.getD 0
  | none => 0

def refLE {α : Type} (s : Store α) (i j : Nat) : Bool :=
  decide (refScore s j ≤ refScore s i)

/-- Embedding of `Reranker._heuristic_rerank` (reranker.py lines 109-148) over the store:
mutates every referenced document, then sorts the caller's list in place
(`documents.sort(..., reverse=True)` is stable descending) and returns it. -/
def heuristic_rerank {α : Type} (query : Str) (s : Store α) (refs : List Nat) :
    Store α × List Nat :=
  let qt := queryTerms query
  let s2 := writeFields qt refs s
  (s2, refs.mergeSort (refLE s2))

/-- Embedding of `Reranker.rerank` with `use_llm = False` (reranker.py lines 26-51):
returns the final store, the caller's (mutated) list, and the returned
truncation. -/
def rerank_heuristic {α : Type} (query : Str) (s : Store α) (refs : List Nat)
    (top_k : Nat) : (Store α × List Nat) × List Nat :=
  if refs = [] then ((s, refs), [])
  else
    let sr := heuristic_rerank query s refs
    (sr, sr.2.take top_k)

lemma storeModify_get?_self {α : Type} (s : Store α) (i : Nat) (f : Doc α → Doc α) :
    (storeModify s i f).get? i = (s.get? i).map f := by
  induction s generalizing i with
  | nil => simp [storeModify]
  | cons d t ih =>
    cases i with
    | zero => simp [storeModify]
    | succ n => simpa [storeModify] using ih n

lemma storeModify_get?_ne {α : Type} (s : Store α) {i j : Nat} (f : Doc α → Doc α)
    (h : i ≠ j) : (storeModify s i f).get? j = s.get? j := by
  induction s generalizing i j with
  | nil => simp [storeModify]
  | cons d t ih =>
    cases i with
    | zero =>
      cases j with
      | zero => exact absurd rfl h
      | succ m => simp [storeModify]
    | succ n =>
      cases j with
      | zero => simp [storeModify]
      | succ m =>
        simpa [storeModify] using ih (fun hc => h (by rw [hc]))

lemma writeFields_get? {α : Type} (qt : List Str) (refs : List Nat) (s : Store α)
    (hnd : refs.Nodup) (i : Nat) :
    (writeFields qt refs s).get? i =
      if i ∈ refs then (s.get? i).map (heuristicFields qt) else s.get? i := by
  induction refs generalizing s with
  | nil => simp [writeFields]
  | cons r rest ih =>
    have hnd' := List.nodup_cons.1 hnd
    rw [writeFields]
    by_cases hir : i = r
    · subst hir
      have hnotin : i ∉ rest := hnd'.1
      rw [ih _ hnd'.2, if_neg hnotin, if_pos (List.mem_cons_self i rest)]
      exact storeModify_get?_self s i _
    · rw [ih _ hnd'.2]
      by_cases hmem : i ∈ rest
      · rw [if_pos hmem, if_pos (List.mem_cons_of_mem r hmem),
          storeModify_get?_ne s _ (fun hc => hir hc.symm)]
      · rw [if_neg hmem, if_neg (by
          intro hc
          rcases List.mem_cons.1 hc with h | h
          · exact hir h
          · exact hmem h),
          storeModify_get?_ne s _ (fun hc => hir hc.symm)]

/-- Claim C10.  The heuristic rerank pass works in place: every referenced
document in the caller's store is overwritten with exactly the three score
fields added (all other fields and all unreferenced documents untouched),
the caller's own list ends up reordered (a permutation of the references it
held), and the returned value is a truncation of that same mutated list. -/
theorem c10_heuristic_inplace {α : Type} (query : Str) (s : Store α)
    (refs : List Nat) (top_k : Nat) (hnd : refs.Nodup) (hne : refs ≠ []) :
    (∀ i ∈ refs,
      ((rerank_heuristic query s refs top_k).1.1).get? i
        = (s.get? i).map (heuristicFields (queryTerms query)))
    ∧ (∀ i, i ∉ refs →
      ((rerank_heuristic query s refs top_k).1.1).get? i = s.get? i)
    ∧ (∀ d : Doc α,
        (heuristicFields (queryTerms query) d).content = d.content
        ∧ (heuristicFields (queryTerms query) d).score = d.score
        ∧ (heuristicFields (queryTerms query) d).final_score = d.final_score
        ∧ (heuristicFields (queryTerms query) d).llm_score = d.llm_score
        ∧ (heuristicFields (queryTerms query) d).rest = d.rest)
    ∧ ((rerank_heuristic query s refs top_k).1.2).Perm refs
    ∧ (rerank_heuristic query s refs top_k).2
        = ((rerank_heuristic query s refs top_k).1.2).take top_k := by
  refine ⟨?_, ?_, ?_, ?_, ?_⟩
  · intro i hi
    simp only [rerank_heuristic, if_neg hne, heuristic_rerank]
    rw [writeFields_get? _ _ _ hnd, if_pos hi]
  · intro i hi
    simp only [rerank_heuristic, if_neg hne, heuristic_rerank]
    rw [writeFields_get? _ _ _ hnd, if_neg hi]
  · intro d
    exact ⟨rfl, rfl, rfl, rfl, rfl⟩
  · simp only [rerank_heuristic, if_neg hne, heuristic_rerank]
    exact List.mergeSort_perm _ _
  · simp only [rerank_heuristic, if_neg hne]

/-- Witness for C10: a one-document store with the single reference `0`. -/
theorem c10_heuristic_inplace_witness :
    (∀ i ∈ [0],
      ((rerank_heuristic ("q".data)
          [(⟨"abc".data, some 1, none, none, none, none, none, ()⟩ : Doc Unit)]
          [0] 5).1.1).get? i
        = ([(⟨"abc".data, some 1, none, none, none, none, none, ()⟩ : Doc Unit)].get? i).map
            (heuristicFields (queryTerms ("q".data))))
    ∧ (∀ i, i ∉ [0] →
      ((rerank_heuristic ("q".data)
          [(⟨"abc".data, some 1, none, none, none, none, none, ()⟩ : Doc Unit)]
          [0] 5).1.1).get? i
        = [(⟨"abc".data, some 1, none, none, none, none, none, ()⟩ : Doc Unit)].get? i)
    ∧ (∀ d : Doc Unit,
        (heuristicFields (queryTerms ("q".data)) d).content = d.content
        ∧ (heuristicFields (queryTerms ("q".data)) d).score = d.score
        ∧ (heuristicFields (queryTerms ("q".data)) d).final_score = d.final_score
        ∧ (heuristicFields (queryTerms ("q".data)) d).llm_score = d.llm_score
        ∧ (heuristicFields (queryTerms ("q".data)) d).rest = d.rest)
    ∧ ((rerank_heuristic ("q".data)
          [(⟨"abc".data, some 1, none, none, none, none, none, ()⟩ : Doc Unit)]
          [0] 5).1.2).Perm [0]
    ∧ (rerank_heuristic ("q".data)
          [(⟨"abc".data, some 1, none, none, none, none, none, ()⟩ : Doc Unit)]
          [0] 5).2
        = ((rerank_heuristic ("q".data)
          [(⟨"abc".data, some 1, none, none, none, none, none, ()⟩ : Doc Unit)]
          [0] 5).1.2).take 5 :=
  c10_heuristic_inplace ("q".data)
    [(⟨"abc".data, some 1, none, none, none, none, none, ()⟩ : Doc Unit)]
    [0] 5 (by decide) (by decide)

/-- Claim C9.  Heuristic scoring of one candidate: `term_coverage` is the
fraction of distinct query terms occurring in the lowercased content,
`length_score` is `1 - |len(content) - 500| / 500` clamped to `[0, 1]`,
`heuristic_score = 0.7·term_coverage + 0.3·length_score`, and the combined
rerank score is `(original_score + heuristic_score) / 2`. -/
theorem c9_heuristic_formulas {α : Type} (query : Str) (d : Doc α)
    (h : queryTerms query ≠ []) :
    (heuristicFields (queryTerms query) d).heuristic_score
      = some ((((queryTerms query).countP
            (fun t => strContains (lowerStr d.content) t) : ℚ)
            / ((queryTerms query).length : ℚ)) * (7/10)
          + max 0 (min 1 (1 - |(d.content.length : ℚ) - 500| / 500)) * (3/10))
    ∧ (heuristicFields (queryTerms query) d).original_score = some (originalScore d)
    ∧ (heuristicFields (queryTerms query) d).rerank_score
      = some ((originalScore d
          + ((((queryTerms query).countP
              (fun t => strContains (lowerStr d.content) t) : ℚ)
              / ((queryTerms query).length : ℚ)) * (7/10)
            + max 0 (min 1 (1 - |(d.content.length : ℚ) - 500| / 500)) * (3/10))) / 2)
    ∧ 0 ≤ max 0 (min 1 (1 - |(d.content.length : ℚ) - 500| / 500))
    ∧ max 0 (min 1 (1 - |(d.content.length : ℚ) - 500| / 500)) ≤ 1 := by
  refine ⟨?_, ?_, ?_, ?_, ?_⟩
  · simp [heuristicFields, if_neg h]
  · rfl
  · simp [heuristicFields, if_neg h]
  · exact le_max_left 0 _
  · exact max_le (by norm_num) (min_le_left 1 _)

/-- Witness for C9, Scenario C: query `"remote work policy"` against the
test candidate that contains all three terms — `term_coverage = 1.0`. -/
theorem c9_heuristic_formulas_witness :
    (((queryTerms ("remote work policy".data)).countP
        (fun t => strContains
          (lowerStr ("Remote work policy allows 3 days per week with approval.".data)) t) : ℚ)
        / ((queryTerms ("remote work policy".data)).length : ℚ)) = 1
    ∧ (heuristicFields (queryTerms ("remote work policy".data))
        (⟨"Remote work policy allows 3 days per week with approval.".data,
          some (17/20), some (17/20), none, none, none, none, ()⟩ : Doc Unit)).original_score
      = some (originalScore
        (⟨"Remote work policy allows 3 days per week with approval.".data,
          some (17/20), some (17/20), none, none, none, none, ()⟩ : Doc Unit)) := by
  constructor
  · have h1 : (queryTerms ("remote work policy".data)).countP
        (fun t => strContains
          (lowerStr ("Remote work policy allows 3 days per week with approval.".data)) t) = 3 := by
      decide
    have h2 : (queryTerms ("remote work policy".data)).length = 3 := by decide
    rw [h1, h2]
    norm_num
  · exact (c9_heuristic_formulas ("remote work policy".data)
      (⟨"Remote work policy allows 3 days per week with approval.".data,
        some (17/20), some (17/20), none, none, none, none, ()⟩ : Doc Unit)
      (by decide)).2.1

/-! ### Claim C6: the LLM rerank pass and its failure handling

The relevance judge `_llm_rerank` calls is `gemini_client.generate`
(llm_client.py lines 39-54), whose whole body sits inside
`try/except Exception`: on any failure it returns the fallback string
"Sorry, I couldn't generate a response right now." instead of raising.  So
the judge call always yields a string at reranker.py line 79; the only
observable outcomes per candidate are "the response parses as a float `x`"
or "the response is non-numeric" (which covers failed calls), and nothing
in the scoring loop can reach the `except` at reranker.py line 105.  The
oracle `gen` below returns that float-parse outcome of the response. -/

/-- The score `_llm_rerank` derives from one response (reranker.py lines
81-86): clamp a numeric answer into `[0, 10]` and normalize to `[0, 1]`;
the `ValueError` branch substitutes `0.5` for a non-numeric response,
including the fallback string a failed `generate` call produces. -/
def parsedScore (p : Option ℚ) : ℚ :=
  match p with
  | some x => max 0 (min 10 x) / 10
  | none => 1/2

/-- One iteration of the `for doc in documents:` loop of `_llm_rerank`
(reranker.py lines 67-97): a new dict with the three score fields added. -/
def scoredDoc {α : Type} (gen : Str → Doc α → Option ℚ) (query : Str) (d : Doc α) :
    Doc α :=
  { d with
    llm_score := some (parsedScore (gen query d))
    original_score := some (originalScore d)
    rerank_score := some ((originalScore d + parsedScore (gen query d)) / 2) }

def llmLE {α : Type} (a b : Doc α) : Bool :=
  decide (b.rerank_score.getD 0 ≤ a.rerank_score.getD 0)

/-- Embedding of `Reranker._llm_rerank` (reranker.py lines 53-107): score
every candidate, then sort by `rerank_score` descending (Python's stable
`list.sort`). -/
def llm_rerank {α : Type} (gen : Str → Doc α → Option ℚ) (query : Str)
    (documents : List (Doc α)) : List (Doc α) :=
  (documents.map (scoredDoc gen query)).mergeSort llmLE

/-- Claim C6.  Whether the relevance-judge call fails (its client catches
the error and returns a non-numeric fallback string) or returns a
non-numeric response, `_llm_rerank` substitutes the neutral score `0.5` for
that candidate instead of dropping it or aborting the pass: the output is a
permutation of the per-candidate scored documents — each input candidate
appears exactly once — and every output record carries a `rerank_score`. -/
theorem c6_llm_fallback {α : Type} (gen : Str → Doc α → Option ℚ) (query : Str)
    (docs : List (Doc α)) :
    (llm_rerank gen query docs).Perm (docs.map (scoredDoc gen query))
    ∧ (∀ e ∈ llm_rerank gen query docs, e.rerank_score.isSome)
    ∧ (∀ d ∈ docs, gen query d = none →
        (scoredDoc gen query d).llm_score = some (1/2)) := by
  refine ⟨?_, ?_, ?_⟩
  · exact List.mergeSort_perm _ _
  · intro e he
    obtain ⟨d, hd, rfl⟩ := List.mem_map.1 (List.mem_mergeSort.1 he)
    rfl
  · intro d hd hresp
    simp [scoredDoc, parsedScore, hresp]

/-- Witness for C6: one candidate answers `7` (numeric), the other — as
after a failed judge call — answers non-numerically and receives the `0.5`
fallback; both appear exactly once. -/
theorem c6_llm_fallback_witness :
    (llm_rerank
        (fun _ d => if d.content = "a".data then some 7 else none)
        ("q".data)
        [(⟨"a".data, some 1, none, none, none, none, none, ()⟩ : Doc Unit),
          (⟨"b".data, some 0, none, none, none, none, none, ()⟩ : Doc Unit)]).Perm
      ([(⟨"a".data, some 1, none, none, none, none, none, ()⟩ : Doc Unit),
          (⟨"b".data, some 0, none, none, none, none, none, ()⟩ : Doc Unit)].map
        (scoredDoc (fun _ d => if d.content = "a".data then some 7 else none)
          ("q".data)))
    ∧ (∀ e ∈ llm_rerank
        (fun _ d => if d.content = "a".data then some 7 else none)
        ("q".data)
        [(⟨"a".data, some 1, none, none, none, none, none, ()⟩ : Doc Unit),
          (⟨"b".data, some 0, none, none, none, none, none, ()⟩ : Doc Unit)],
        e.rerank_score.isSome)
    ∧ (∀ d ∈ [(⟨"a".data, some 1, none, none, none, none, none, ()⟩ : Doc Unit),
          (⟨"b".data, some 0, none, none, none, none, none, ()⟩ : Doc Unit)],
        (fun (_ : Str) (d : Doc Unit) =>
          if d.content = "a".data then some (7 : ℚ) else none) ("q".data) d = none →
        (scoredDoc
          (fun _ d => if d.content = "a".data then some 7 else none)
          ("q".data) d).llm_score = some (1/2)) :=
  c6_llm_fallback
    (fun _ d => if d.content = "a".data then some 7 else none)
    ("q".data)
    [(⟨"a".data, some 1, none, none, none, none, none, ()⟩ : Doc Unit),
      (⟨"b".data, some 0, none, none, none, none, none, ()⟩ : Doc Unit)]

end Reranker

namespace SparseIndexer

/-- Python `\w` over ASCII: `[a-zA-Z0-9_]`. -/
def isWordChar (c : Char) : Bool :=
  ('a' ≤ c && c ≤ 'z') || ('A' ≤ c && c ≤ 'Z') || ('0' ≤ c && c ≤ '9') || c = '_'

/-- Embedding of `SparseIndexer._tokenize` (index_sparse.py lines 55-61): lowercase,
replace every character that is neither word nor whitespace by a space,
split on whitespace, keep only tokens longer than two characters. -/
def tokenize (text : Str) : List Str :=
  let lowered := lowerStr text
  let cleaned := lowered.map (fun c => if !(isWordChar c || pyIsSpace c) then ' ' else c)
  (splitWs cleaned).filter (fun t => t.length > 2)

/-- The distinct tokens in first-occurrence order: the iteration order of
Python's `Counter(tokens).items()`. -/
def firstOccs : List Str → List Str
  | [] => []
  | t :: rest => t :: (firstOccs rest).filter (fun u => !(u = t))

/-- Python `Counter(tokens)` as an insertion-ordered list of (term, frequency). -/
def termFreq (tokens : List Str) : List (Str × Nat) :=
  (firstOccs tokens).map (fun t => (t, tokens.count t))

/-- The BM25 fields `__init__` sets (index_sparse.py lines 42-49): `k1 = 1.5`,
`b = 0.75`, and the document stats, of which `avg_doc_length` is initialized
to `0` and never updated anywhere in the repository. -/
structure BM25State where
  k1 : ℚ
  b : ℚ
  avg_doc_length : ℚ

def initState : BM25State := { k1 := 3/2, b := 3/4, avg_doc_length := 0 }

/-- The per-term score of `_compute_bm25_sparse_vector` (line 93):
`freq / (freq + k1 * (1 - b + b * doc_length / max(avg_doc_length, 1)))`. -/
def tf_score (st : BM25State) (freq : Nat) (doc_length : Nat) : ℚ :=
  (freq : ℚ)
    / ((freq : ℚ) + st.k1 * (1 - st.b + st.b * (doc_length : ℚ) / max st.avg_doc_length 1))

/-- The values of the sparse vector `_compute_bm25_sparse_vector` builds
(index_sparse.py lines 63-101), keyed by term (the hashed indices carry no
information relevant to the weights). -/
def compute_bm25_values (st : BM25State) (text : Str) (doc_length : Nat) :
    List (Str × ℚ) :=
  (termFreq (tokenize text)).map (fun p => (p.1, tf_score st p.2 doc_length))

/-- The weight the specification asserts: `f / (f + k1·(1 − b + b·L/avgL))`
with `k1 = 1.5`, `b = 0.75` and `avgL` the corpus average chunk length.
This definition follows the spec's words, for comparison with the code. -/
def specWeight (f L : Nat) (avgL : ℚ) : ℚ :=
  (f : ℚ) / ((f : ℚ) + (3/2) * (1 - 3/4 + (3/4) * (L : ℚ) / avgL))

/-- Counterexample to C7 as stated: a one-chunk corpus whose chunk has 4
tokens, so the corpus average chunk length is 4.  For the term `aaa` with
`f = 3`, the spec formula gives `2/3`, but the stored weight is `8/21`:
the code divides by `max(avg_doc_length, 1) = 1`, because `avg_doc_length`
is initialized to `0` and never recomputed from the corpus. -/
theorem c7_bm25_cex :
    (compute_bm25_values initState ("aaa bbb aaa aaa".data) 4).map Prod.snd
      = [8/21, 8/47]
    ∧ specWeight 3 4 4 = 2/3
    ∧ (8/21 : ℚ) ≠ 2/3 := by
  refine ⟨?_, ?_, ?_⟩
  · norm_num +decide [compute_bm25_values, termFreq, tokenize, firstOccs,
      tf_score, initState, splitWs, splitWsAux, lowerStr, lowerChar,
      isWordChar, pyIsSpace, List.count]
  · norm_num [specWeight]
  · norm_num

/-- Claim C7, amended.  The sparse index stores, for each distinct term of a
chunk with frequency `f` and chunk token length `L`, the weight
`f / (f + k1·(1 − b + b·L/max(avg_doc_length, 1)))` with `k1 = 1.5` and
`b = 0.75`; and since `avg_doc_length` is initialized to `0` and never
updated, the divisor is `1`, so the stored weight is
`f / (f + 1.5·(0.25 + 0.75·L))` — not length-normalized by the corpus
average. -/
theorem c7_bm25 (text : Str) (L : Nat) :
    (compute_bm25_values initState text L).map Prod.fst = firstOccs (tokenize text)
    ∧ ∀ p ∈ compute_bm25_values initState text L,
        p.2 = ((tokenize text).count p.1 : ℚ)
          / (((tokenize text).count p.1 : ℚ)
            + (3/2) * (1 - 3/4 + (3/4) * (L : ℚ))) := by
  constructor
  · simp only [compute_bm25_values, termFreq, List.map_map]
    have hid : (Prod.fst ∘ (fun p : Str × Nat => (p.1, tf_score initState p.2 L))
        ∘ fun t => (t, (tokenize text).count t)) = id := by
      funext t
      rfl
    rw [hid, List.map_id]
  · intro p hp
    simp only [compute_bm25_values, termFreq, List.map_map, List.mem_map] at hp
    obtain ⟨t, ht, rfl⟩ := hp
    simp only [tf_score, initState, Function.comp]
    norm_num

/-- Witness for C7: the weight stored for `aaa` in the counterexample's
chunk satisfies the amended formula. -/
theorem c7_bm25_witness :
    (("aaa".data, (8/21 : ℚ)) : Str × ℚ).2
      = (((tokenize ("aaa bbb aaa aaa".data)).count ("aaa".data) : ℚ))
        / ((((tokenize ("aaa bbb aaa aaa".data)).count ("aaa".data) : ℚ))
          + (3/2) * (1 - 3/4 + (3/4) * ((4 : Nat) : ℚ))) :=
  (c7_bm25 ("aaa bbb aaa aaa".data) 4).2 ("aaa".data, 8/21)
    (by norm_num +decide [compute_bm25_values, termFreq, tokenize, firstOccs,
      tf_score, initState, splitWs, splitWsAux, lowerStr, lowerChar,
      isWordChar, pyIsSpace, List.count])

end SparseIndexer

namespace DenseIndexer

/-- A chunk as `DenseIndexer.index_documents` consumes it: its id and text
(the metadata fields are copied into the vector verbatim and carry no
weight in the claims). -/
structure DChunk where
  id : Str
  text : Str
deriving DecidableEq

/-- A vector as upserted to Pinecone: chunk id and embedding. -/
abbrev Vec := Str × List ℚ

/-- Embedding of `_get_embeddings_batch` then the per-text fallback of `index_documents`
(index_dense.py lines 113-127): the batch call is modelled by `embedBatch`
(which returns `[]` when its internal `except` fires), the per-text call by
`embedOne` (`[]` = failure, such a chunk is skipped). -/
def batchEmbs (embedBatch : List Str → List (List ℚ)) (embedOne : Str → List ℚ)
    (texts : List Str) : List (List ℚ) :=
  let embs := embedBatch texts
  if embs = [] ∨ embs.length ≠ texts.length then
    (texts.map embedOne).filter (fun e => !(e = []))
  else embs

/-- Python `zip(batch_chunks, embeddings)` then vector construction
(index_dense.py lines 134-148). -/
def mkVectors (batch : List DChunk) (embs : List (List ℚ)) : List Vec :=
  (batch.zip embs).map (fun p => (p.1.id, p.2))

/-- The batch loop of `index_documents` (index_dense.py lines 102-160).
`upsertOk` models `self.index.upsert`: `false` means the call raises, the
outer `except` catches it and the function returns `0` — vectors upserted
by earlier iterations stay persisted in Pinecone, which the second
component records.  A `batch_size` of `0` makes Python's `range` raise at
once (also caught, returning `0`). -/
def indexLoop (embedBatch : List Str → List (List ℚ)) (embedOne : Str → List ℚ)
    (upsertOk : List Vec → Bool) (bs : Nat) :
    List DChunk → Nat → List Vec → Nat × List Vec
  | [], cnt, pers => (cnt, pers)
  | c :: cs, cnt, pers =>
    if bs = 0 then (0, pers)
    else
      let batch := (c :: cs).take bs
      let rest := (c :: cs).drop bs
      let texts := batch.map (·.text)
      let embs := batchEmbs embedBatch embedOne texts
      if embs = [] then
        indexLoop embedBatch embedOne upsertOk bs rest cnt pers
      else
        let vectors := mkVectors batch embs
        if upsertOk vectors then
          indexLoop embedBatch embedOne upsertOk bs rest
            (cnt + vectors.length) (pers ++ vectors)
        else
          (0, pers)
termination_by l _ _ => l.length
decreasing_by
  all_goals simp [List.length_drop]
  all_goals omega

/-- Embedding of `DenseIndexer.index_documents`: returns the reported count and the
vectors actually persisted in Pinecone. -/
def index_documents (embedBatch : List Str → List (List ℚ)) (embedOne : Str → List ℚ)
    (upsertOk : List Vec → Bool) (chunks : List DChunk) (batch_size : Nat) :
    Nat × List Vec :=
  indexLoop embedBatch embedOne upsertOk batch_size chunks 0 []

/-- Counterexample to C8 as stated: two one-chunk batches; embeddings
succeed everywhere, batch 1 upserts fine, but the upsert of batch 2 raises.
The outer `except` then returns `0`, although the one chunk of batch 1 is
already persisted — an upsert failure confined to one batch does collapse
the reported count to zero. -/
theorem c8_index_documents_cex :
    (index_documents (fun texts => texts.map (fun _ => [1])) (fun _ => [1])
        (fun v => decide (¬ ("b".data ∈ v.map Prod.fst)))
        [⟨"a".data, "ta".data⟩, ⟨"b".data, "tb".data⟩] 1).1 = 0
    ∧ ((index_documents (fun texts => texts.map (fun _ => [1])) (fun _ => [1])
        (fun v => decide (¬ ("b".data ∈ v.map Prod.fst)))
        [⟨"a".data, "ta".data⟩, ⟨"b".data, "tb".data⟩] 1).2).length = 1 := by
  constructor
  · norm_num +decide [index_documents, indexLoop, batchEmbs, mkVectors]
  · norm_num +decide [index_documents, indexLoop, batchEmbs, mkVectors]

lemma indexLoop_count (embedBatch : List Str → List (List ℚ))
    (embedOne : Str → List ℚ) {bs : Nat} (hbs : 0 < bs) :
    ∀ n (l : List DChunk), l.length ≤ n → ∀ (cnt : Nat) (pers : List Vec),
      cnt = pers.length →
      (indexLoop embedBatch embedOne (fun _ => true) bs l cnt pers).1
        = ((indexLoop embedBatch embedOne (fun _ => true) bs l cnt pers).2).length := by
  have hbs0 : ¬ bs = 0 := Nat.pos_iff_ne_zero.1 hbs
  intro n
  induction n with
  | zero =>
    intro l hl cnt pers h
    have hnil : l = [] := List.eq_nil_of_length_eq_zero (Nat.le_zero.1 hl)
    subst hnil
    simpa [indexLoop] using h
  | succ n ih =>
    intro l hl cnt pers h
    cases l with
    | nil => simpa [indexLoop] using h
    | cons c cs =>
      have hdrop : (List.drop bs (c :: cs)).length ≤ n := by
        simp only [List.length_cons] at hl
        simp only [List.length_drop, List.length_cons]
        omega
      simp only [indexLoop, hbs0, if_false]
      by_cases hembs : batchEmbs embedBatch embedOne
          (List.map (fun x => x.text) (List.take bs (c :: cs))) = []
      · rw [if_pos hembs]
        exact ih _ hdrop cnt pers h
      · rw [if_neg hembs]
        simp only [if_true]
        refine ih _ hdrop _ _ ?_
        simp [h, List.length_append]

/-- Claim C8, amended.  As long as every upsert succeeds, the build reports
exactly the number of chunks actually persisted: embedding failures (a
whole batch failing, or single chunks skipped by the per-text fallback)
merely reduce the count, they never zero out the other batches.  An upsert
exception, however, is caught by the outer `except`, which returns `0`
even though the vectors of earlier batches remain persisted. -/
theorem c8_index_documents (embedBatch : List Str → List (List ℚ))
    (embedOne : Str → List ℚ) (chunks : List DChunk) (bs : Nat) (hbs : 0 < bs) :
    (index_documents embedBatch embedOne (fun _ => true) chunks bs).1
      = ((index_documents embedBatch embedOne (fun _ => true) chunks bs).2).length :=
  indexLoop_count embedBatch embedOne hbs chunks.length chunks (le_refl _) 0 [] rfl

/-- Witness for C8: the batch-embedding call fails for both batches, the
per-text fallback succeeds for chunk `a` and fails for chunk `b` (whose
batch is skipped); the reported count equals the persisted count, namely 1. -/
theorem c8_index_documents_witness :
    (index_documents (fun _ => []) (fun t => if t = "tb".data then [] else [1])
        (fun _ => true) [⟨"a".data, "ta".data⟩, ⟨"b".data, "tb".data⟩] 1).1
      = ((index_documents (fun _ => []) (fun t => if t = "tb".data then [] else [1])
        (fun _ => true) [⟨"a".data, "ta".data⟩, ⟨"b".data, "tb".data⟩] 1).2).length
    ∧ (index_documents (fun _ => []) (fun t => if t = "tb".data then [] else [1])
        (fun _ => true) [⟨"a".data, "ta".data⟩, ⟨"b".data, "tb".data⟩] 1).1 = 1 := by
  constructor
  · exact c8_index_documents (fun _ => []) (fun t => if t = "tb".data then [] else [1])
      [⟨"a".data, "ta".data⟩, ⟨"b".data, "tb".data⟩] 1 (by decide)
  · norm_num +decide [index_documents, indexLoop, batchEmbs, mkVectors]

end DenseIndexer

namespace DocumentPreprocessor

/-- Constructor parameters of `DocumentPreprocessor.__init__`
(preprocess.py lines 21-45).  All four are stored; `min_tokens` is
documented as "Minimum tokens for valid chunk" but is never read anywhere
else in the file. -/
structure Config where
  target_tokens : Nat
  max_tokens : Nat
  overlap_tokens : Nat
  min_tokens : Nat
deriving DecidableEq

/-- Python defaults: `target_tokens=350, max_tokens=450, overlap_tokens=50,
min_tokens=50`. -/
def defaultConfig : Config :=
  { target_tokens := 350, max_tokens := 450, overlap_tokens := 50, min_tokens := 50 }

/-- An input document: a dict with `content` and `source`. -/
structure InputDoc where
  content : Str
  source : Str
deriving DecidableEq

/-- A parsed markdown section (`_parse_sections` output). -/
structure MdSection where
  heading : Str
  level : Nat
  text : Str
deriving DecidableEq

/-- A produced chunk with its metadata (the `section` metadata key is the
`heading` field here, `section` being a Lean keyword). -/
structure Chunk where
  id : Str
  text : Str
  heading : Str
  policy_type : Str
  source_file : Str
  chunk_index : Nat
  tokens : Nat
deriving DecidableEq

/-- Python `str.split(sep)` for a one-character separator: keeps empty
pieces. -/
def splitOnCharAux (sep : Char) : Str → Str → List Str
  | [], cur => [cur.reverse]
  | c :: rest, cur =>
    if c = sep then cur.reverse :: splitOnCharAux sep rest []
    else splitOnCharAux sep rest (c :: cur)

def splitOnChar (sep : Char) (s : Str) : List Str := splitOnCharAux sep s []

/-- Python `str.strip()`. -/
def stripStr (s : Str) : Str :=
  ((s.dropWhile (fun c => pyIsSpace c)).reverse.dropWhile (fun c => pyIsSpace c)).reverse

/-- Python `sep.join(pieces)` for a one-character separator. -/
def joinWith (sep : Char) : List Str → Str
  | [] => []
  | [x] => x
  | x :: y :: rest => x ++ sep :: joinWith sep (y :: rest)

/-- Python `s[-k:]` for `k > 0` (for `k = 0` Python's `s[0:]` is the whole
string); used with `k = char_overlap`. -/
def takeLastPy (k : Nat) (s : Str) : Str :=
  if k = 0 then s else s.drop (s.length - k)

/-- Matcher for `re.match(r'^(#{2,3})\s+(.+)$', line)` (preprocess.py line
99): group 1 is two or three `#` (three preferred, greedy), then at least
one whitespace character, then group 2, at least one character up to the
end of the line.  Returns `(len(group(1)), group(2))`.  When everything
after the hashes is whitespace (at least two characters of it), the greedy
`\s+` backtracks and group 2 is the last whitespace character. -/
def matchHeadingAux (k : Nat) (line : Str) : Option (Nat × Str) :=
  let rest := line.drop k
  match rest with
  | [] => none
  | c :: _ =>
    if pyIsSpace c then
      let tail := rest.dropWhile (fun x => pyIsSpace x)
      if !(tail = []) then some (k, tail)
      else if 2 ≤ rest.length then some (k, rest.drop (rest.length - 1))
      else none
    else none

def matchHeading (line : Str) : Option (Nat × Str) :=
  if strStartsWith line ("###".data) then matchHeadingAux 3 line
  else if strStartsWith line ("##".data) then matchHeadingAux 2 line
  else none

/-- Python truthiness of `current_heading and current_text`. -/
def sectionTruthy (h : Option Str) (txt : List Str) : Bool :=
  match h with
  | none => false
  | some hh => !(hh = []) && !(txt = [])

/-- Save the current section if `current_heading and current_text`
(preprocess.py lines 111-116 and 136-141). -/
def flushSection (h : Option Str) (lvl : Nat) (txt : List Str) : List MdSection :=
  if sectionTruthy h txt then
    [{ heading := h.getD [], level := lvl, text := stripStr (joinWith '\n' txt) }]
  else []

/-- The line loop of `_parse_sections` (preprocess.py lines 106-141),
including the `Introduction` section opened by the first non-blank line
before any heading. -/
def parseLoop : List Str → Option Str → Nat → List Str → List MdSection
  | [], h, lvl, txt => flushSection h lvl txt
  | line :: rest, h, lvl, txt =>
    match matchHeading line with
    | some (k, g2) =>
      flushSection h lvl txt ++ parseLoop rest (some (stripStr g2)) k [line]
    | none =>
      match h with
      | some _ => parseLoop rest h lvl (txt ++ [line])
      | none =>
        if !(stripStr line = []) then
          parseLoop rest (some ("Introduction".data)) 1 [line]
        else
          parseLoop rest none lvl txt

/-- Embedding of `DocumentPreprocessor._parse_sections`. -/
def parse_sections (content : Str) : List MdSection :=
  parseLoop (splitOnChar '\n' content) none 0 []

/-- Embedding of `_estimate_tokens`: `len(text) // 4`. -/
def estimate_tokens (text : Str) : Nat := text.length / 4

lemma length_dropWhile_le {α : Type} (p : α → Bool) (l : List α) :
    (l.dropWhile p).length ≤ l.length := by
  induction l with
  | nil => simp
  | cons a t ih =>
    by_cases h : p a = true
    · rw [List.dropWhile_cons_of_pos h]
      exact le_trans ih (Nat.le_succ _)
    · rw [List.dropWhile_cons_of_neg h]

/-- Splitter state machine for `re.split(r'(?<=[.!?])\s+', text)`
(preprocess.py lines 261-262): a whitespace run preceded by `.`, `!` or `?`
is a delimiter.  After a delimiter the previous character is whitespace, so
it can never retrigger the lookbehind; `none` is passed for it. -/
def splitSentencesAux : Str → Str → Option Char → List Str
  | [], cur, _ => [cur.reverse]
  | c :: rest, cur, prev =>
    if pyIsSpace c ∧ (prev = some '.' ∨ prev = some '!' ∨ prev = some '?') then
      cur.reverse :: splitSentencesAux (rest.dropWhile (fun x => pyIsSpace x)) [] none
    else
      splitSentencesAux rest (c :: cur) (some c)
termination_by s _ _ => s.length
decreasing_by
  · have := length_dropWhile_le (fun x => pyIsSpace x) rest
    simp only [List.length_cons]
    omega
  · simp

/-- Embedding of `_split_sentences`: split, strip each piece, drop empties. -/
def split_sentences (text : Str) : List Str :=
  ((splitSentencesAux text [] none).map stripStr).filter (fun s => !(s = []))

/-- The sentence loop of `_split_by_tokens` (preprocess.py lines 226-246):
accumulate sentences until the character target is exceeded, then emit the
chunk and carry the last `char_overlap` characters over. -/
def splitLoop (char_target char_overlap : Nat) :
    List Str → List Str → Nat → List Str → List Str
  | [], cur, _, chunks =>
    if !(cur = []) then chunks ++ [joinWith ' ' cur] else chunks
  | sent :: rest, cur, curLen, chunks =>
    let sl := sent.length
    if 0 < curLen ∧ char_target < curLen + sl then
      let joined := joinWith ' ' cur
      let overlap_text := takeLastPy char_overlap joined
      splitLoop char_target char_overlap rest [overlap_text, sent]
        (overlap_text.length + sl) (chunks ++ [joined])
    else
      splitLoop char_target char_overlap rest (cur ++ [sent]) (curLen + sl) chunks

/-- Embedding of `_split_by_tokens` (preprocess.py lines 209-248). -/
def split_by_tokens (cfg : Config) (text : Str) : List Str :=
  splitLoop (cfg.target_tokens * 4) (cfg.overlap_tokens * 4)
    (split_sentences text) [] 0 []

/-- Embedding of `_extract_policy_type` (preprocess.py lines 277-296). -/
def extract_policy_type (filename : Str) : Str :=
  let f := lowerStr filename
  if strContains f ("hr".data) || strContains f ("employee".data) then
    "HR Policy".data
  else if strContains f ("security".data) || strContains f ("data".data) then
    "Security Policy".data
  else if strContains f ("handbook".data) || strContains f ("company".data) then
    "Company Policy".data
  else
    "General Policy".data

/-- Decimal digit character. -/
def digitChar (d : Nat) : Char := Char.ofNat (48 + d)

/-- Decimal digits of `n` (most significant first), prepended to `acc`;
fuel-structured so that it evaluates inside the kernel.  Any correct
decimal printer embeds Python's `%d`. -/
def natDigitsCore : Nat → Nat → List Char → List Char
  | 0, _, acc => acc
  | fuel + 1, n, acc =>
    if n = 0 then acc
    else natDigitsCore fuel (n / 10) (digitChar (n % 10) :: acc)

def natDigits (n : Nat) : Str :=
  if n = 0 then ['0'] else natDigitsCore (n + 1) n []

/-- Python `f"{index:03d}"`: left-pad the decimal form to width 3. -/
def pad3 (n : Nat) : Str :=
  List.replicate (3 - (natDigits n).length) '0' ++ natDigits n

/-- Embedding of `_generate_chunk_id` (preprocess.py lines 298-313):
`f"softvence_{base_name}_{index:03d}"` with
`base_name = source_file.split('/')[-1].split('.')[0]`. -/
def generate_chunk_id (source_file : Str) (index : Nat) : Str :=
  let base_name := (splitOnChar '.' ((splitOnChar '/' source_file).getLastD [])).headD []
  ("softvence_".data ++ base_name ++ "_".data) ++ pad3 index

/-- One chunk record of `_chunk_section`. -/
def mkChunk (source_file policy_type heading : Str) (idx : Nat) (text : Str) : Chunk :=
  { id := generate_chunk_id source_file idx
    text := text
    heading := heading
    policy_type := policy_type
    source_file := source_file
    chunk_index := idx
    tokens := estimate_tokens text }

/-- The `for i, sub_text in enumerate(sub_chunks)` loop of `_chunk_section`. -/
def buildSubChunks (source_file policy_type heading : Str) :
    List Str → Nat → List Chunk
  | [], _ => []
  | t :: rest, idx =>
    mkChunk source_file policy_type heading idx t
      :: buildSubChunks source_file policy_type heading rest (idx + 1)

/-- Embedding of `_chunk_section` (preprocess.py lines 146-207): a section
within `max_tokens` stays one chunk; a larger one is split by
`_split_by_tokens`.  No branch consults `min_tokens`. -/
def chunk_section (cfg : Config) (sec : MdSection) (source_file policy_type : Str)
    (start_index : Nat) : List Chunk :=
  if estimate_tokens sec.text ≤ cfg.max_tokens then
    [mkChunk source_file policy_type sec.heading start_index sec.text]
  else
    buildSubChunks source_file policy_type sec.heading
      (split_by_tokens cfg sec.text) start_index

/-- The `for section_data in sections` loop of `preprocess`
(preprocess.py lines 71-79), threading `chunk_counter`. -/
def processSections (cfg : Config) (source_file policy_type : Str) :
    List MdSection → Nat → List Chunk
  | [], _ => []
  | sec :: rest, counter =>
    let cs := chunk_section cfg sec source_file policy_type counter
    cs ++ processSections cfg source_file policy_type rest (counter + cs.length)

/-- The `for doc in documents` loop of `preprocess` (lines 60-79). -/
def processDocs (cfg : Config) : List InputDoc → Nat → List Chunk
  | [], _ => []
  | doc :: rest, counter =>
    let pt := extract_policy_type doc.source
    let secs := parse_sections doc.content
    let cs := processSections cfg doc.source pt secs counter
    cs ++ processDocs cfg rest (counter + cs.length)

/-- Embedding of `DocumentPreprocessor.preprocess` (preprocess.py lines
47-84). -/
def preprocess (cfg : Config) (documents : List InputDoc) : List Chunk :=
  processDocs cfg documents 0

/-- Claim C4 is a code bug: `min_tokens` is stored by `__init__` (documented
"Minimum tokens for valid chunk") but never consulted, so a section whose
estimated size falls below `min_tokens` is emitted anyway.  Failing input: a
document whose single section estimates to 2 tokens, far below the default
`min_tokens = 50` — `preprocess` still returns it as a chunk. -/
theorem c4_min_tokens_not_enforced :
    preprocess defaultConfig [⟨"## T\nHello".data, "x.md".data⟩]
      = [{ id := "softvence_x_000".data
           text := "## T\nHello".data
           heading := "T".data
           policy_type := "General Policy".data
           source_file := "x.md".data
           chunk_index := 0
           tokens := 2 }]
    ∧ 2 < defaultConfig.min_tokens := by
  exact ⟨by decide, by decide⟩

/-! ### Claim C5: chunk-id distinctness and stability

The decimal printer is fuel-structured; we relate it to `Nat.digits` and
read the value back to obtain injectivity of the padded id suffix. -/

/-- Read a decimal digit string back to its value. -/
def decValFrom (a : Nat) (s : Str) : Nat :=
  s.foldl (fun x c => x * 10 + (c.toNat - 48)) a

lemma natDigitsCore_eq_digits :
    ∀ n fuel acc, n < fuel →
      natDigitsCore fuel n acc = ((Nat.digits 10 n).reverse.map digitChar) ++ acc := by
  intro n
  induction n using Nat.strong_induction_on with
  | _ n ih =>
    intro fuel acc hfuel
    cases fuel with
    | zero => omega
    | succ f =>
      rw [natDigitsCore]
      by_cases hn : n = 0
      · subst hn
        simp
      · rw [if_neg hn]
        have hpos : 0 < n := Nat.pos_of_ne_zero hn
        have hdiv : n / 10 < n := Nat.div_lt_self hpos (by norm_num)
        have hdivf : n / 10 < f := by omega
        rw [ih (n / 10) hdiv f _ hdivf]
        rw [Nat.digits_def' (by norm_num : (1 : ℕ) < 10) hpos]
        simp [List.reverse_cons, List.map_append, List.append_assoc]

lemma foldl_digits_val :
    ∀ (ds : List ℕ), (∀ d ∈ ds, d < 10) → ∀ a : Nat,
      decValFrom a (ds.reverse.map digitChar)
        = a * 10 ^ ds.length + Nat.ofDigits 10 ds := by
  intro ds
  induction ds with
  | nil =>
    intro _ a
    simp [decValFrom, Nat.ofDigits_nil]
  | cons d t ih =>
    intro hds a
    have hd : d < 10 := hds d (List.mem_cons_self d t)
    have hchar : (digitChar d).toNat - 48 = d := by
      interval_cases d <;> rfl
    rw [List.reverse_cons, List.map_append]
    show List.foldl _ a _ = _
    rw [List.foldl_append]
    have ht := ih (fun x hx => hds x (List.mem_cons_of_mem d hx)) a
    rw [show List.foldl (fun x c => x * 10 + (c.toNat - 48)) a
        (List.map digitChar t.reverse) = decValFrom a (t.reverse.map digitChar) from rfl,
      ht]
    simp only [List.foldl_cons, List.foldl_nil, List.map_cons, List.map_nil]
    rw [hchar, Nat.ofDigits_cons, List.length_cons]
    ring

lemma decVal_natDigits (n : Nat) : decValFrom 0 (natDigits n) = n := by
  by_cases hn : n = 0
  · subst hn
    rfl
  · rw [natDigits, if_neg hn,
      natDigitsCore_eq_digits n (n + 1) [] (Nat.lt_succ_self n), List.append_nil,
      foldl_digits_val _ (fun d hd => Nat.digits_lt_base (by norm_num) hd) 0]
    simp [Nat.ofDigits_digits]

lemma decVal_replicate_zero (k : Nat) :
    ∀ s : Str, decValFrom 0 (List.replicate k '0' ++ s) = decValFrom 0 s := by
  induction k with
  | zero => intro s; rfl
  | succ m ih =>
    intro s
    rw [List.replicate_succ, List.cons_append]
    show decValFrom (0 * 10 + ('0'.toNat - 48)) (List.replicate m '0' ++ s) = _
    have h0 : (0 * 10 + ('0'.toNat - 48)) = 0 := by decide
    rw [h0]
    exact ih s

lemma decVal_pad3 (n : Nat) : decValFrom 0 (pad3 n) = n := by
  rw [pad3, decVal_replicate_zero, decVal_natDigits]

lemma pad3_inj {m n : Nat} (h : pad3 m = pad3 n) : m = n := by
  rw [← decVal_pad3 m, h, decVal_pad3]

lemma generate_chunk_id_inj (src : Str) {i j : Nat}
    (h : generate_chunk_id src i = generate_chunk_id src j) : i = j := by
  simp only [generate_chunk_id] at h
  exact pad3_inj (List.append_cancel_left h)

/-- The positional invariant: the chunk at a given position carries that
position (relative to the running counter) as its `chunk_index`, and its id
is generated from its own `source_file` at that index. -/
def ChunkAt (c : Chunk) (k : Nat) : Prop :=
  c.chunk_index = k ∧ c.id = generate_chunk_id c.source_file k

lemma buildSubChunks_at (src pt hd : Str) :
    ∀ (subs : List Str) (idx : Nat) i (c : Chunk),
      (buildSubChunks src pt hd subs idx)[i]? = some c → ChunkAt c (idx + i) := by
  intro subs
  induction subs with
  | nil =>
    intro idx i c hc
    simp [buildSubChunks] at hc
  | cons t rest ih =>
    intro idx i c hc
    cases i with
    | zero =>
      rw [buildSubChunks, List.getElem?_cons_zero] at hc
      cases hc
      exact ⟨rfl, rfl⟩
    | succ m =>
      rw [buildSubChunks, List.getElem?_cons_succ] at hc
      have h := ih (idx + 1) m c hc
      have harith : idx + 1 + m = idx + (m + 1) := by omega
      rw [harith] at h
      exact h

lemma chunk_section_at (cfg : Config) (sec : MdSection) (src pt : Str) (s : Nat) :
    ∀ i (c : Chunk),
      (chunk_section cfg sec src pt s)[i]? = some c → ChunkAt c (s + i) := by
  intro i c hc
  simp only [chunk_section] at hc
  by_cases hest : estimate_tokens sec.text ≤ cfg.max_tokens
  · rw [if_pos hest] at hc
    cases i with
    | zero =>
      rw [List.getElem?_cons_zero] at hc
      cases hc
      exact ⟨rfl, rfl⟩
    | succ m =>
      rw [List.getElem?_cons_succ] at hc
      simp at hc
  · rw [if_neg hest] at hc
    exact buildSubChunks_at src pt sec.heading _ s i c hc

lemma processSections_at (cfg : Config) (src pt : Str) :
    ∀ (secs : List MdSection) (counter : Nat) i (c : Chunk),
      (processSections cfg src pt secs counter)[i]? = some c →
      ChunkAt c (counter + i) := by
  intro secs
  induction secs with
  | nil =>
    intro counter i c hc
    simp [processSections] at hc
  | cons sec rest ih =>
    intro counter i c hc
    simp only [processSections] at hc
    by_cases hlt : i < (chunk_section cfg sec src pt counter).length
    · rw [List.getElem?_append_left hlt] at hc
      exact chunk_section_at cfg sec src pt counter i c hc
    · rw [List.getElem?_append_right (Nat.le_of_not_lt hlt)] at hc
      have h := ih (counter + (chunk_section cfg sec src pt counter).length)
        (i - (chunk_section cfg sec src pt counter).length) c hc
      have harith : counter + (chunk_section cfg sec src pt counter).length
          + (i - (chunk_section cfg sec src pt counter).length) = counter + i := by
        omega
      rw [harith] at h
      exact h

lemma processDocs_at (cfg : Config) :
    ∀ (docs : List InputDoc) (counter : Nat) i (c : Chunk),
      (processDocs cfg docs counter)[i]? = some c → ChunkAt c (counter + i) := by
  intro docs
  induction docs with
  | nil =>
    intro counter i c hc
    simp [processDocs] at hc
  | cons doc rest ih =>
    intro counter i c hc
    simp only [processDocs] at hc
    by_cases hlt : i < (processSections cfg doc.source (extract_policy_type doc.source)
        (parse_sections doc.content) counter).length
    · rw [List.getElem?_append_left hlt] at hc
      exact processSections_at cfg doc.source _ _ counter i c hc
    · rw [List.getElem?_append_right (Nat.le_of_not_lt hlt)] at hc
      have h := ih _ _ c hc
      have harith : counter + (processSections cfg doc.source
            (extract_policy_type doc.source) (parse_sections doc.content) counter).length
          + (i - (processSections cfg doc.source (extract_policy_type doc.source)
              (parse_sections doc.content) counter).length) = counter + i := by
        omega
      rw [harith] at h
      exact h

/-- Claim C5.  Within one `preprocess` run, chunks with the same source
file always get distinct ids (the global chunk counter gives every chunk a
distinct zero-padded index, and the id embeds it); and `preprocess` is a
pure function of its input, so rebuilding from identical input reproduces
identical ids. -/
theorem c5_chunk_ids (cfg : Config) (documents : List InputDoc) :
    (∀ i j (hi : i < (preprocess cfg documents).length)
        (hj : j < (preprocess cfg documents).length), i ≠ j →
      ((preprocess cfg documents).get ⟨i, hi⟩).source_file
        = ((preprocess cfg documents).get ⟨j, hj⟩).source_file →
      ((preprocess cfg documents).get ⟨i, hi⟩).id
        ≠ ((preprocess cfg documents).get ⟨j, hj⟩).id)
    ∧ preprocess cfg documents = preprocess cfg documents := by
  refine ⟨?_, rfl⟩
  intro i j hi hj hne hsrc hid
  have hgi : (processDocs cfg documents 0)[i]?
      = some ((preprocess cfg documents).get ⟨i, hi⟩) := by
    rw [List.get_eq_getElem]
    exact List.getElem?_eq_getElem hi
  have hgj : (processDocs cfg documents 0)[j]?
      = some ((preprocess cfg documents).get ⟨j, hj⟩) := by
    rw [List.get_eq_getElem]
    exact List.getElem?_eq_getElem hj
  have hA := processDocs_at cfg documents 0 i _ hgi
  have hB := processDocs_at cfg documents 0 j _ hgj
  rw [hA.2, hB.2, hsrc] at hid
  have hij := generate_chunk_id_inj _ hid
  omega

/-- Witness for C5: a two-section document produces two chunks from the
same source file with distinct ids. -/
theorem c5_chunk_ids_witness :
    ((preprocess defaultConfig
        [⟨"## Alpha\nxxxx\n## Beta\nyyyy".data, "x.md".data⟩]).get ⟨0, by decide⟩).id
      ≠ ((preprocess defaultConfig
        [⟨"## Alpha\nxxxx\n## Beta\nyyyy".data, "x.md".data⟩]).get ⟨1, by decide⟩).id :=
  (c5_chunk_ids defaultConfig
      [⟨"## Alpha\nxxxx\n## Beta\nyyyy".data, "x.md".data⟩]).1
    0 1 (by decide) (by decide) (by decide) (by decide)

end DocumentPreprocessor
